import Mathlib

/-!
Verification of the `lice` license-stamping tool.

Go strings are modelled as `List Char` (sequences of Unicode scalar values);
Go's byte-oriented `len` is modelled by `goLen`, the sum of the UTF-8 sizes
of the characters, which agrees with Go's `len` on every valid string.
Text blocks (`block` in `licenses/text.go`) are modelled as `List (List Char)`,
the list of lines.
-/

namespace Lice

/-- A Go string: a sequence of Unicode scalar values. -/
abbrev GoStr := List Char

/-- Go `len` of a string: total number of UTF-8 bytes. -/
def goLen (s : GoStr) : Nat := (s.map Char.utf8Size).sum

/-- The cutset `" \t\r\n"` used by `strings.TrimRight` in `block.trimSpace`
and `block.indent`. -/
def isCut (c : Char) : Bool :=
  c == ' ' || c == '\t' || c == '\r' || c == '\n'

/-- Go `unicode.IsSpace`: White_Space property characters. -/
def isGoSpace (c : Char) : Bool :=
  c == ' ' || c == '\t' || c == '\n' || c == '\x0B' || c == '\x0C' ||
  c == '\r' || c == '\u0085' || c == '\u00A0' || c == '\u1680' ||
  ('\u2000' ≤ c && c ≤ '\u200A') || c == '\u2028' || c == '\u2029' ||
  c == '\u202F' || c == '\u205F' || c == '\u3000'

/-- Go `strings.Split(s, "\n")`: split a string into lines at newline characters.
Like Go, an empty string yields one empty field. -/
def splitLines : GoStr → List GoStr
  | [] => [[]]
  | c :: rest =>
    if c = '\n' then [] :: splitLines rest
    else
      match splitLines rest with
      | l :: ls => (c :: l) :: ls
      | [] => [[c]]

/-- Go `strings.Join(lines, "\n")`: model of `block.String`. -/
def joinLines : List GoStr → GoStr
  | [] => []
  | [l] => l
  | l :: ls => l ++ '\n' :: joinLines ls

/-- Go `strings.TrimRight(line, " \t\r\n")`: drop trailing cutset characters. -/
def trimRight (l : GoStr) : GoStr :=
  ((l.reverse).dropWhile isCut).reverse

/-- Go `block.trimSpace`: trim every line on the right, then discard leading and
trailing blank (empty-after-trim) lines. -/
def trimSpace (lines : List GoStr) : List GoStr :=
  let ls := lines.map trimRight
  (((ls.dropWhile List.isEmpty).reverse).dropWhile List.isEmpty).reverse

/-- Expansion of one line in `block.untabify`: every tab becomes `w` spaces
(`strings.Replace(line, "\t", spaces, -1)`). -/
def untabLine (w : Nat) (l : GoStr) : GoStr :=
  l.flatMap fun c => if c = '\t' then List.replicate w ' ' else [c]

/-- Go `block.untabify(width)`: Go treats a non-positive width as 4; the `Nat`
argument models the non-negative case, with 0 standing for the `width <= 0`
default (the only call in the repository passes 0). -/
def untabify (width : Nat) (lines : List GoStr) : List GoStr :=
  let w := if width = 0 then 4 else width
  lines.map (untabLine w)

/-- Go `leftSpace(s)`: the leading run of `unicode.IsSpace` characters. -/
def leftSpace (l : GoStr) : GoStr := l.takeWhile isGoSpace

/-- Go `strings.TrimPrefix(l, p)`: drop `p` from the front of `l` if it is a
prefix, otherwise return `l` unchanged. Byte-level prefixes of valid UTF-8
strings coincide with character-level prefixes, so `List.isPrefixOf` is
faithful. -/
def trimPfx (p l : GoStr) : GoStr :=
  if p.isPrefixOf l then l.drop p.length else l

/-- The accumulator step of the `min` scan in `block.leftJust`: a line is
considered when it is non-empty, and replaces the current minimum when its
leading whitespace is strictly shorter in bytes (`len(spc) < len(*min)`). -/
def minStep (acc : Option GoStr) (line : GoStr) : Option GoStr :=
  let spc := leftSpace line
  match acc with
  | none => if line.isEmpty then none else some spc
  | some m => if !line.isEmpty && goLen spc < goLen m then some spc else acc

/-- The full `min` scan of `block.leftJust` over the lines in order. -/
def minLS (lines : List GoStr) : Option GoStr :=
  lines.foldl minStep none

/-- Go `block.leftJust`: strip the selected minimal leading-whitespace string
from every line that starts with it. -/
def leftJust (lines : List GoStr) : List GoStr :=
  match minLS lines with
  | none => lines
  | some p => lines.map (trimPfx p)

/-- The function `cleanup(text)` from `lice.go`: `newBlock(text).trimSpace().untabify(0).leftJust()`. -/
def cleanup (s : GoStr) : List GoStr :=
  leftJust (untabify 0 (trimSpace (splitLines s)))

/-- Normalization as a string transformer: `cleanup` followed by
`block.String()`. -/
def normalizeGo (s : GoStr) : GoStr :=
  joinLines (cleanup s)

/-- Go `block.indent(ind)`: prepend the marker to every line except a trailing
empty final line, then re-trim trailing whitespace. -/
def goIndent (ind : GoStr) : List GoStr → List GoStr
  | [] => []
  | [l] => [if l = [] then l else trimRight (ind ++ l)]
  | l :: ls => trimRight (ind ++ l) :: goIndent ind ls

/-- Rule `IComment(first, rest, last)` applied to a block:
`b.indent(rest).prepend(first).append(last)`. -/
def goComment (first rest last : GoStr) (lines : List GoStr) : List GoStr :=
  first :: (goIndent rest lines ++ [last])

/-- A software license (`licenses.License`). -/
structure License where
  Name : String
  Slug : String
  URL : String
  Text : String
  PerFile : String
deriving DecidableEq, Repr

/-- The slugs of a registry's `known` list, in order. -/
def slugs (r : List License) : List String := r.map License.Slug

/-- Element access `r.known[m].Slug`; in every reachable probe the index is in
bounds, so the default is never consulted. -/
def slugAt (known : List String) (m : Nat) : String := known.getD m ""

/-- Go string comparison `s < t`: lexicographic on bytes, which for valid
UTF-8 strings coincides with lexicographic comparison of Unicode scalar
values. -/
def goStrLtb : GoStr → GoStr → Bool
  | [], [] => false
  | [], _ :: _ => true
  | _ :: _, [] => false
  | a :: as, b :: bs => if a < b then true else if b < a then false else goStrLtb as bs

/-- Go `s < t` on the `String` wrappers used for slugs. -/
def goLt (s t : String) : Bool := goStrLtb s.data t.data

/-- The loop of `registry.lookup`, with explicit fuel: one unit per test of the
loop condition `i <= j`. In Go `i` and `j` are ints, but both stay non-negative
whenever the list is non-empty (`j` starts at `len-1` and is only ever lowered
to a midpoint, `i` only raised), so `Nat` indices are faithful; the empty list,
where Go starts with `j = -1`, is handled by `lookupGo` below. -/
def lookupLoop (known : List String) (slug : String) : Nat → Nat → Nat → Option (Nat × Bool)
  | 0, _, _ => none
  | fuel+1, i, j =>
    if i ≤ j then
      let m := (i + j) / 2
      let cur := slugAt known m
      if slug = cur then some (m, true)
      else if goLt slug cur then lookupLoop known slug fuel i m
      else lookupLoop known slug fuel (m + 1) j
    else some (i, false)

/-- Go `registry.lookup(slug)`: returns `(index, found)`, or `none` when the fuel
runs out (the Go loop has not yet terminated after `fuel` iterations). -/
def lookupGo (known : List String) (slug : String) (fuel : Nat) : Option (Nat × Bool) :=
  if known.length = 0 then some (0, false)
  else lookupLoop known slug fuel 0 (known.length - 1)

/-- Go `registry.insert`, modelling the Go line
`r.known = append(append(r.known[:i], lic), r.known[i:]...)` faithfully,
including its slice aliasing: when `i < len(r.known)` the inner `append`
writes `lic` into the backing array at index `i` before `r.known[i:]` is
copied, so the element originally at `i` is overwritten. The expression below
is `take i ++ lic :: drop i (set i lic)`, which reduces to `r ++ [lic]` when
`i = length r`. -/
def insertAt (r : List License) (lic : License) (i : Nat) : List License :=
  r.take i ++ lic :: (r.set i lic).drop i

/-- The result of one `Register` call: `.error st` models a `log.Panic` with
the registry still in state `st`; `.ok st` is a normal return with new state
`st`; `none` means the call has not returned after `fuel` search steps. -/
def registerGo (r : List License) (lic : License) (fuel : Nat) :
    Option (Except (List License) (List License)) :=
  if lic.Slug = "" then some (Except.error r)
  else
    match lookupGo (slugs r) lic.Slug fuel with
    | none => none
    | some (_, true) => some (Except.error r)
    | some (i, false) => some (Except.ok (insertAt r lic i))

/-- A sequence of `Register` calls; `none` as soon as one call panics or fails
to return. -/
def registerSeq (fuel : Nat) (r : List License) : List License → Option (List License)
  | [] => some r
  | lic :: rest =>
    match registerGo r lic fuel with
    | some (Except.ok r2) => registerSeq fuel r2 rest
    | _ => none

/-- Go `registry.fetch` / `Lookup`: the registered license for a slug, or `none`
both for an absent slug and for fuel exhaustion (the distinction is drawn by
`lookupGo` itself). -/
def fetchGo (r : List License) (slug : String) (fuel : Nat) : Option License :=
  match lookupGo (slugs r) slug fuel with
  | some (i, true) => (r.drop i).head?
  | _ => none

/-- The strict slug order used by the registry invariant. -/
def slugLt (a b : String) : Prop := goLt a b = true

/-- The observable file-system state around one `EditFile` call: the content
at the original path and the content at the temporary path (`none` when no
temporary file exists). -/
structure FS where
  orig : GoStr
  tmp : Option GoStr
deriving DecidableEq, Repr

/-- Success or failure of each fallible step of `License.EditFile`, in source
order: `filepath.Abs`, `f.Seek`, template parsing (`c.newTemplate`),
`os.CreateTemp`, the template execution into the temp file (`write(tmp)`),
`io.Copy(tmp, f)`, `tmp.Sync()`, `tmp.Close()`, and `os.Rename`. -/
structure EditEnv where
  absOk : Bool
  seekOk : Bool
  parseOk : Bool
  createOk : Bool
  writeOk : Bool
  copyOk : Bool
  syncOk : Bool
  closeOk : Bool
  renameOk : Bool
deriving DecidableEq, Repr

/-- The outcome of one `EditFile` call: whether a `nil` error was returned,
the final file-system state, and whether a temp file was created and whether
the rename over the original path was performed. -/
structure EditOut where
  ok : Bool
  fs : FS
  createdTemp : Bool
  didRename : Bool
deriving DecidableEq, Repr

/-- Go `License.EditFile(f, c, indent)` as a state transformer. `perFile` is the
license's `PerFile` text and `hdr` the rendered header (the indently-fixed,
cleaned per-file text with its trailing blank separator, as produced by the
template). The `defer os.Remove(tmp.Name())` runs on every exit path after the
temp file was created; after a successful rename it is a no-op on the vanished
temp name. -/
def editFileGo (perFile hdr : GoStr) (env : EditEnv) (fs : FS) : EditOut :=
  if perFile = [] then ⟨true, fs, false, false⟩
  else if !env.absOk then ⟨false, fs, false, false⟩
  else if !env.seekOk then ⟨false, fs, false, false⟩
  else if !env.parseOk then ⟨false, fs, false, false⟩
  else if !env.createOk then ⟨false, fs, false, false⟩
  else
    -- err = write(tmp); if err == nil { copy; if err == nil { sync } }
    let stepsOk := env.writeOk && env.copyOk && env.syncOk
    if !stepsOk then ⟨false, ⟨fs.orig, none⟩, true, false⟩
    else if !env.closeOk then ⟨false, ⟨fs.orig, none⟩, true, false⟩
    else if env.renameOk then ⟨true, ⟨hdr ++ fs.orig, none⟩, true, true⟩
    else ⟨false, ⟨fs.orig, none⟩, true, false⟩

/-- The closed set of indenting rules in the `indent` table of `lice.go`. -/
inductive IndentKind
  | hash
  | slash
  | star
  | sstar
  | xml
deriving DecidableEq, Repr

/-- The semantics of each table entry (and of the `nil` rule) as a block
transformer, via `goIndent` (`IPrefix`) and `goComment` (`IComment`). -/
def applyIndent : Option IndentKind → List GoStr → List GoStr
  | none => fun b => b
  | some IndentKind.hash => goIndent ("# ".data)
  | some IndentKind.slash => goIndent ("// ".data)
  | some IndentKind.star => goComment ("/*".data) ("   ".data) (" */".data)
  | some IndentKind.sstar => goComment ("/*".data) (" * ".data) (" */".data)
  | some IndentKind.xml => goComment ("<!--".data) ("   ".data) ("  -->".data)

/-- The `indent` map literal from `lice.go`, keyed by style name. -/
def indentTable (k : String) : Option IndentKind :=
  if k = "hash" then some IndentKind.hash
  else if k = "slash" then some IndentKind.slash
  else if k = "star" then some IndentKind.star
  else if k = "sstar" then some IndentKind.sstar
  else if k = "xml" then some IndentKind.xml
  else none

/-- Go `filepath.Ext`: scan the path from the right; the extension starts at the
last dot in the final path element, and is empty when a separator is met
first or no dot occurs. The accumulator carries the characters already passed,
in original order. -/
def goExtAux : List Char → List Char → GoStr
  | _, [] => []
  | acc, c :: rest =>
    if c = '/' then []
    else if c = '.' then '.' :: acc
    else goExtAux (c :: acc) rest

/-- Go `filepath.Ext(path)`. -/
def goExt (path : GoStr) : GoStr := goExtAux [] path.reverse

/-- The `switch filepath.Ext(path)` of `chooseIndent` as a function of the
extension alone. -/
def extRule (e : GoStr) : Option IndentKind :=
  if e = [] ∨ e = ".sh".data ∨ e = ".py".data ∨ e = ".pl".data ∨ e = ".rb".data then
    some IndentKind.hash
  else if e = ".cc".data ∨ e = ".cpp".data ∨ e = ".go".data ∨ e = ".java".data ∨
      e = ".js".data then
    some IndentKind.slash
  else if e = ".c".data ∨ e = ".h".data then some IndentKind.star
  else if e = ".htm".data ∨ e = ".html".data ∨ e = ".xhtml".data then some IndentKind.xml
  else none

/-- Go `chooseIndent(path)` from `lice.go`: a user-pinned style from the table
wins; otherwise a non-`guess` style yields the `nil` rule; otherwise the rule
is inferred from the file extension. -/
def chooseIndentGo (styleKey : String) (path : GoStr) : Option IndentKind :=
  match indentTable styleKey with
  | some k => some k
  | none => if styleKey ≠ "guess" then none else extRule (goExt path)

/-- A template token: literal text or the text of one action between the
double-brace delimiters. -/
inductive Tok
  | lit (s : GoStr)
  | act (s : GoStr)
deriving DecidableEq, Repr

/-- Scan up to the first double open brace; returns the literal prefix and,
when found, the remainder after the delimiter. -/
def scanOpen : GoStr → GoStr × Option GoStr
  | [] => ([], none)
  | '\x7b' :: '\x7b' :: rest => ([], some rest)
  | c :: rest =>
    let p := scanOpen rest
    (c :: p.1, p.2)

/-- Scan up to the first double close brace. -/
def scanClose : GoStr → GoStr × Option GoStr
  | [] => ([], none)
  | '\x7d' :: '\x7d' :: rest => ([], some rest)
  | c :: rest =>
    let p := scanClose rest
    (c :: p.1, p.2)

/-- Modelled from the spec: tokenization of Go `text/template` source (package
`text/template` is not part of this repository). Alternating literal text and
brace-delimited actions; the fuel bounds the number of actions and `s.length`
always suffices. -/
def tokenize : Nat → GoStr → List Tok
  | 0, _ => []
  | _, [] => []
  | fuel + 1, s =>
    match scanOpen s with
    | (lit, none) => [Tok.lit lit]
    | (lit, some rest) =>
      match scanClose rest with
      | (_, none) => [Tok.lit lit]
      | (act, some rest2) => Tok.lit lit :: Tok.act act :: tokenize fuel rest2

/-- The render context for the template model: the author and project fields
of `Config` and the date/time formatting function `c.Time.Format`, abstracted
over the layout string. -/
structure RenderCfg where
  author : GoStr
  project : GoStr
  fmtDate : GoStr → GoStr

/-- Skip tokens up to and including the matching `end` action (the license
templates use no nested actions). -/
def dropToEnd : List Tok → List Tok
  | [] => []
  | Tok.act a :: ts => if a = ("end".data) then ts else dropToEnd ts
  | Tok.lit _ :: ts => dropToEnd ts

/-- Modelled from the spec (section 4.3): execution of a parsed Go
`text/template` (not part of this repository), restricted to the constructs
the license templates use — author and project field substitution, the
`date`/`time` layout formatters, and the conditional project block, which is
skipped entirely when the context's project is empty. -/
def renderToks (cfg : RenderCfg) : Nat → List Tok → GoStr
  | 0, _ => []
  | _, [] => []
  | fuel + 1, Tok.lit l :: ts => l ++ renderToks cfg fuel ts
  | fuel + 1, Tok.act a :: ts =>
    if a = (".Author".data) then cfg.author ++ renderToks cfg fuel ts
    else if a = (".Project".data) then cfg.project ++ renderToks cfg fuel ts
    else if a.take 6 = ("date \"".data) then
      cfg.fmtDate ((a.drop 6).dropLast) ++ renderToks cfg fuel ts
    else if a.take 6 = ("time \"".data) then
      cfg.fmtDate ((a.drop 6).dropLast) ++ renderToks cfg fuel ts
    else if a = ("if .Project".data) then
      if cfg.project = [] then renderToks cfg fuel (dropToEnd ts)
      else renderToks cfg fuel ts
    else if a = ("end".data) then renderToks cfg fuel ts
    else renderToks cfg fuel ts

/-- Render a template string under a context. -/
def renderTemplate (cfg : RenderCfg) (s : GoStr) : GoStr :=
  renderToks cfg (s.length + 1) (tokenize (s.length + 1) s)

/-- The template string `License.WriteText` hands to the renderer:
`cleanup(lic.Text).append("")` followed by `String()`. -/
def writeTextTemplate (text : String) : GoStr :=
  joinLines (cleanup text.data ++ [[]])

/-- Go `License.WriteText` for a non-nil license whose template parses (all
registered ones do): the rendered text written to `w`. -/
def writeTextGo (text : String) (cfg : RenderCfg) : GoStr :=
  renderTemplate cfg (writeTextTemplate text)

/-- The `disclaimer` constant of the `bsd` package, transcribed from the source. -/
def disclaimerText : String :=
  "\n" ++
  "THIS SOFTWARE IS PROVIDED BY THE AUTHOR \"AS IS\" AND ANY EXPRESS OR IMPLIED\n" ++
  "WARRANTIES, INCLUDING, BUT NOT LIMITED TO, THE IMPLIED WARRANTIES OF\n" ++
  "MERCHANTABILITY AND FITNESS FOR A PARTICULAR PURPOSE ARE DISCLAIMED. IN NO\n" ++
  "EVENT SHALL THE AUTHOR BE LIABLE FOR ANY DIRECT, INDIRECT, INCIDENTAL, SPECIAL,\n" ++
  "EXEMPLARY, OR CONSEQUENTIAL DAMAGES (INCLUDING, BUT NOT LIMITED TO, PROCUREMENT\n" ++
  "OF SUBSTITUTE GOODS OR SERVICES; LOSS OF USE, DATA, OR PROFITS; OR BUSINESS\n" ++
  "INTERRUPTION) HOWEVER CAUSED AND ON ANY THEORY OF LIABILITY, WHETHER IN\n" ++
  "CONTRACT, STRICT LIABILITY, OR TORT (INCLUDING NEGLIGENCE OR OTHERWISE) ARISING\n" ++
  "IN ANY WAY OUT OF THE USE OF THIS SOFTWARE, EVEN IF ADVISED OF THE POSSIBILITY\n" ++
  "OF SUCH DAMAGE.\n"

/-- The first raw-string segment of the `freetext` constant of the `bsd` package. -/
def freebsdHead : String :=
  "\n" ++
  "Copyright \x7b\x7bdate \"2006\"\x7d\x7d, \x7b\x7b.Author\x7d\x7d\n" ++
  "All Rights Reserved.\n" ++
  "\n" ++
  "Redistribution and use in source and binary forms, with or without\n" ++
  "modification, are permitted provided that the following conditions are met:\n" ++
  "\n" ++
  "1. Redistributions of source code must retain the above copyright notice, this\n" ++
  "   list of conditions and the following disclaimer.\n" ++
  "\n" ++
  "2. Redistributions in binary form must reproduce the above copyright notice,\n" ++
  "   this list of conditions and the following disclaimer in the documentation\n" ++
  "   and/or other materials provided with the distribution.\n"

/-- The final raw-string segment of the `freetext` constant: the conditional project block. -/
def freebsdTail : String :=
  "\x7b\x7bif .Project\x7d\x7d\n" ++
  "The views and conclusions contained in the software and documentation are those\n" ++
  "of the authors and should not be interpreted as representing official policies,\n" ++
  "either expressed or implied, of the \x7b\x7b.Project\x7d\x7d Project.\n" ++
  "\x7b\x7bend\x7d\x7d"

/-- The `freetext` constant of the `bsd` package: the FreeBSD license body
template, built by the same concatenation as the source. -/
def freebsdText : String := freebsdHead ++ disclaimerText ++ freebsdTail

/-- A blank line in the sense of the claim: nothing but whitespace. -/
def blankLine (l : GoStr) : Bool := l.all isGoSpace

/-- Longest common prefix of two strings. -/
def commonPfx : GoStr → GoStr → GoStr
  | [], _ => []
  | _, [] => []
  | a :: as, b :: bs => if a = b then a :: commonPfx as bs else []

/-- The claim's "minimum common leading-whitespace prefix across all non-blank
lines": the common prefix of the leading whitespace runs of the non-blank
lines (empty when there are none). -/
def wsCommonPfx (lines : List GoStr) : GoStr :=
  match lines.filter (fun l => !blankLine l) with
  | [] => []
  | l :: rest => rest.foldl (fun acc ln => commonPfx acc (leftSpace ln)) (leftSpace l)

/-- Left justification as the claim words it: every line loses exactly the
minimum common leading-whitespace prefix of the non-blank lines; blank lines
are left as empty strings and are excluded from the minimum computation. -/
def specLeftJust (lines : List GoStr) : List GoStr :=
  let p := wsCommonPfx lines
  lines.map fun l => if blankLine l then [] else l.drop p.length

/-- Normalization with the claim's left-justification step in place of the
code's. -/
def cleanupSpec (s : GoStr) : List GoStr :=
  specLeftJust (untabify 0 (trimSpace (splitLines s)))

/-- Drop trailing elements satisfying `p`; the common pattern behind
`trimRight` (character level) and `trimSpace` (line level). -/
def dropEnd {α : Type} (p : α → Bool) (m : List α) : List α :=
  ((m.reverse).dropWhile p).reverse

/-- C2: the claim asserts that the prefix rule with marker `"# "` sends
`["a", "", "b"]` to `["# a", "", "# b"]`. In the code the interior blank
line receives the marker and only its trailing space is trimmed, leaving
`"#"`, so the claimed output is wrong. -/
theorem c2_counterexample :
    goIndent ("# ".data) [['a'], [], ['b']] ≠ [("# a".data), [], ("# b".data)] := by
  decide

/-- C2 (amended): applying the prefix indenting rule with marker `"# "` to the
body lines `["a", "", "b"]` yields exactly `["# a", "#", "# b"]`: the marker is
placed on the interior blank line and its trailing whitespace trimmed, leaving
`"#"`; only a wholly-whitespace marker would collapse to the empty string. -/
theorem c2_prefix_rule_blank_line :
    goIndent ("# ".data) [['a'], [], ['b']] = [("# a".data), ("#".data), ("# b".data)] := by
  decide

/-- C4: `registry.lookup` does not terminate on every input. With the registry
holding the single slug `"apache2"` (the first license the program registers)
and the query slug `"a"`, the loop reaches the state `i = j = 0`, where
`"a" < "apache2"` re-assigns `j = m = 0` and the state repeats forever: no
amount of fuel makes the search return. The claim (and the doc comment of
`Lookup`) promises a `nil` result for unregistered slugs instead. -/
theorem c4_lookup_nonterminating (fuel : Nat) :
    lookupGo ["apache2"] "a" fuel = none := by
  have key : ∀ n : Nat, lookupLoop ["apache2"] "a" n 0 0 = none := by
    intro n
    induction n with
    | zero => rfl
    | succ k ih =>
      have hlt : goLt "a" "apache2" = true := by decide
      have hne : ¬ ("a" = "apache2") := by decide
      simpa [lookupLoop, slugAt, hne, hlt] using ih
  simpa [lookupGo] using key fuel

lemma goStrLtb_swap_of_ne :
    ∀ (a b : GoStr), goStrLtb a b = false → a ≠ b → goStrLtb b a = true := by
  intro a
  induction a with
  | nil =>
    intro b h1 h2
    cases b with
    | nil => exact absurd rfl h2
    | cons c cs => simp [goStrLtb] at h1
  | cons c cs ih =>
    intro b h1 h2
    cases b with
    | nil => simp [goStrLtb]
    | cons d ds =>
      by_cases hcd : c < d
      · simp [goStrLtb, hcd] at h1
      · by_cases hdc : d < c
        · simp [goStrLtb, hdc]
        · have hce : c = d := le_antisymm (not_lt.mp hdc) (not_lt.mp hcd)
          subst hce
          simp only [goStrLtb, if_neg hcd, if_neg hdc] at h1 ⊢
          refine ih ds h1 ?_
          intro hds
          exact h2 (by rw [hds])

lemma goStrLtb_trans :
    ∀ (a b c : GoStr), goStrLtb a b = true → goStrLtb b c = true → goStrLtb a c = true := by
  intro a
  induction a with
  | nil =>
    intro b c h1 h2
    cases b with
    | nil => simp [goStrLtb] at h1
    | cons d ds =>
      cases c with
      | nil => simp [goStrLtb] at h2
      | cons e es => simp [goStrLtb]
  | cons x xs ih =>
    intro b c h1 h2
    cases b with
    | nil => simp [goStrLtb] at h1
    | cons y ys =>
      cases c with
      | nil => simp [goStrLtb] at h2
      | cons z zs =>
        by_cases hxy : x < y
        · by_cases hyz : y < z
          · simp [goStrLtb, lt_trans hxy hyz]
          · by_cases hzy : z < y
            · simp [goStrLtb, hyz, hzy] at h2
            · have : y = z := le_antisymm (not_lt.mp hzy) (not_lt.mp hyz)
              subst this
              simp [goStrLtb, hxy]
        · by_cases hyx : y < x
          · simp [goStrLtb, hxy, hyx] at h1
          · have : x = y := le_antisymm (not_lt.mp hyx) (not_lt.mp hxy)
            subst this
            simp only [goStrLtb, if_neg hxy, if_neg hyx] at h1
            by_cases hxz : x < z
            · simp [goStrLtb, hxz]
            · by_cases hzx : z < x
              · simp [goStrLtb, hzx] at h2
                simp [goStrLtb, h2]
              · have : x = z := le_antisymm (not_lt.mp hzx) (not_lt.mp hxz)
                subst this
                simp only [goStrLtb, if_neg hxz, if_neg hzx] at h2 ⊢
                exact ih ys zs h1 h2

lemma goLt_swap_of_ne (a b : String) (h1 : goLt a b = false) (h2 : a ≠ b) :
    goLt b a = true := by
  refine goStrLtb_swap_of_ne a.data b.data h1 ?_
  intro hd
  exact h2 (String.ext hd)

lemma goLt_trans {a b c : String} (h1 : goLt a b = true) (h2 : goLt b c = true) :
    goLt a c = true :=
  goStrLtb_trans a.data b.data c.data h1 h2

lemma mem_of_getLast? {α : Type} : ∀ {l : List α} {z : α}, l.getLast? = some z → z ∈ l := by
  intro l
  induction l with
  | nil => intro z h; simp at h
  | cons a t ih =>
    intro z h
    cases t with
    | nil => simp at h; simp [h]
    | cons b t2 =>
      rw [List.getLast?_cons_cons] at h
      exact List.mem_cons_of_mem a (ih h)

lemma pairwise_last_dominates :
    ∀ (l : List String) (z : String), l.Pairwise slugLt → l.getLast? = some z →
      ∀ x ∈ l, x = z ∨ slugLt x z := by
  intro l
  induction l with
  | nil => intro z _ h; simp at h
  | cons a t ih =>
    intro z hp hz x hx
    cases t with
    | nil =>
      simp at hz
      subst hz
      simp at hx
      exact Or.inl hx
    | cons b t2 =>
      rw [List.getLast?_cons_cons] at hz
      rcases List.pairwise_cons.mp hp with ⟨ha, hp2⟩
      rcases List.mem_cons.mp hx with hx | hx
      · subst hx
        exact Or.inr (ha z (mem_of_getLast? hz))
      · exact ih z hp2 hz x hx

/-- States of the search loop in which `slug` is below the pivot fence
(`slug < known[j]`) can never exit with "not found": the only exit path
requires `slug > known[m]` at `m = j`. -/
lemma lookupLoop_no_unfound (known : List String) (slug : String) :
    ∀ (fuel i j : Nat), i ≤ j → j < known.length →
      goLt slug (slugAt known j) = true →
      ∀ k, lookupLoop known slug fuel i j ≠ some (k, false) := by
  intro fuel
  induction fuel with
  | zero => intro i j _ _ _ k; simp [lookupLoop]
  | succ f ih =>
    intro i j hij hjlen hfence k
    have hm1 : i ≤ (i + j) / 2 := by omega
    have hm2 : (i + j) / 2 ≤ j := by omega
    simp only [lookupLoop, if_pos hij]
    by_cases he : slug = slugAt known ((i + j) / 2)
    · simp [he]
    · by_cases hlt : goLt slug (slugAt known ((i + j) / 2)) = true
      · simp only [if_neg he, if_pos hlt]
        exact ih i ((i + j) / 2) hm1 (lt_of_le_of_lt hm2 hjlen) hlt k
      · have hmj : (i + j) / 2 ≠ j := by
          intro hEq
          rw [hEq] at hlt
          exact hlt hfence
        simp only [if_neg he, if_neg hlt]
        exact ih ((i + j) / 2 + 1) j (by omega) hjlen hfence k

/-- When an unfound search terminates, it has marched `i` all the way past the
end: the returned insert position is `length known`, and the query slug is
strictly above the last (largest) slug. -/
lemma lookupLoop_unfound_at_end (known : List String) (slug : String)
    (n : Nat) (hn : known.length = n) (hpos : 0 < n) :
    ∀ (fuel i k : Nat), i ≤ n - 1 →
      lookupLoop known slug fuel i (n - 1) = some (k, false) →
      k = n ∧ goLt (slugAt known (n - 1)) slug = true := by
  intro fuel
  induction fuel with
  | zero => intro i k _ h; simp [lookupLoop] at h
  | succ f ih =>
    intro i k hi h
    rw [lookupLoop, if_pos hi] at h
    set m := (i + (n - 1)) / 2 with hmdef
    have hm1 : i ≤ m := by omega
    have hm2 : m ≤ n - 1 := by omega
    by_cases he : slug = slugAt known m
    · rw [if_pos he] at h
      simp at h
    · rw [if_neg he] at h
      by_cases hlt : goLt slug (slugAt known m) = true
      · rw [if_pos hlt] at h
        exact absurd h (lookupLoop_no_unfound known slug f i m hm1 (by omega) hlt k)
      · rw [if_neg hlt] at h
        have hf : goLt slug (slugAt known m) = false := by simpa using hlt
        have hgt : goLt (slugAt known m) slug = true := goLt_swap_of_ne _ _ hf he
        by_cases hend : m + 1 ≤ n - 1
        · exact ih (m + 1) k hend h
        · have hmeq : m = n - 1 := by omega
          cases f with
          | zero => simp [lookupLoop] at h
          | succ f2 =>
            rw [lookupLoop, if_neg hend] at h
            have hk : m + 1 = k := by
              have := Option.some.inj h
              exact (Prod.mk.injEq _ _ _ _ ▸ this).1
            constructor
            · omega
            · rw [← hmeq]; exact hgt

/-- Inserting at position `length r` appends: the aliasing in `insertAt` is
harmless in exactly this case. -/
lemma insertAt_at_end (r : List License) (lic : License) :
    insertAt r lic r.length = r ++ [lic] := by
  unfold insertAt
  rw [List.take_length]
  have h1 : (r.set r.length lic).drop r.length = [] := by
    have h2 := List.drop_length (l := r.set r.length lic)
    rwa [List.length_set] at h2
  rw [h1]

/-- The value of `slugAt` at the last index is the last slug. -/
lemma slugAt_last (known : List String) (n : Nat) (hn : known.length = n) (hpos : 0 < n) :
    known.getLast? = some (slugAt known (n - 1)) := by
  have hlt : n - 1 < known.length := by omega
  rw [List.getLast?_eq_getElem?, hn]
  rw [List.getElem?_eq_getElem (by omega)]
  unfold slugAt
  rw [List.getD_eq_getElem?_getD, List.getElem?_eq_getElem hlt]
  rfl

/-- A successful (returning, non-panicking) `Register` call always appends at
the end and preserves strict sortedness of the slug list. -/
lemma registerGo_ok (r r2 : List License) (lic : License) (fuel : Nat)
    (hs : (slugs r).Pairwise slugLt)
    (h : registerGo r lic fuel = some (Except.ok r2)) :
    r2 = r ++ [lic] ∧ (slugs r2).Pairwise slugLt := by
  unfold registerGo at h
  by_cases hslug : lic.Slug = ""
  · rw [if_pos hslug] at h
    simp at h
  · rw [if_neg hslug] at h
    cases hlook : lookupGo (slugs r) lic.Slug fuel with
    | none => rw [hlook] at h; simp at h
    | some p =>
      obtain ⟨i, found⟩ := p
      rw [hlook] at h
      cases found with
      | true => simp at h
      | false =>
        simp only [Option.some.injEq, Except.ok.injEq] at h
        unfold lookupGo at hlook
        by_cases hemp : (slugs r).length = 0
        · have hr : r = [] := by
            unfold slugs at hemp
            cases r with
            | nil => rfl
            | cons a t => simp at hemp
          subst hr
          rw [if_pos hemp] at hlook
          have hi : i = 0 := by
            have := Option.some.inj hlook
            exact ((Prod.mk.injEq _ _ _ _ ▸ this).1).symm
          subst hi
          constructor
          · exact h.symm
          · rw [← h]
            simp [insertAt, slugs, List.Pairwise]
        · rw [if_neg hemp] at hlook
          set n := (slugs r).length with hndef
          have hpos : 0 < n := Nat.pos_of_ne_zero hemp
          obtain ⟨hi, hgt⟩ := lookupLoop_unfound_at_end (slugs r) lic.Slug n rfl hpos
            fuel 0 i (by omega) hlook
          have hrlen : n = r.length := by
            unfold slugs at hndef
            rw [hndef, List.length_map]
          have hins : insertAt r lic i = r ++ [lic] := by
            rw [hi, hrlen, insertAt_at_end]
          refine ⟨by rw [← h, hins], ?_⟩
          rw [← h, hins]
          have hmap : slugs (r ++ [lic]) = slugs r ++ [lic.Slug] := by
            unfold slugs
            rw [List.map_append]
            rfl
          rw [hmap]
          rw [List.pairwise_append]
          refine ⟨hs, List.pairwise_singleton _ _, ?_⟩
          intro x hx b hb
          have hb2 : b = lic.Slug := by simpa using hb
          subst hb2
          have hlast := slugAt_last (slugs r) n rfl hpos
          have hdom := pairwise_last_dominates (slugs r) (slugAt (slugs r) (n - 1)) hs hlast x hx
          rcases hdom with hxe | hxlt
          · rw [hxe]; exact hgt
          · exact goLt_trans hxlt hgt

/-- C9: after every sequence of successful `Register` calls starting from the
empty registry (none panicking, each returning), the entry list is exactly the
registered licenses and its slugs are strictly sorted, so `visit`/`List`
enumerates every registered license exactly once in strictly increasing slug
order. (Registration orders that would require a mid-list insertion never
return at all — see the C4 theorem — so every successful sequence appends at
the end.) -/
theorem c9_registry_sorted (ls : List License) (fuel : Nat) :
    ∀ (r r2 : List License), (slugs r).Pairwise slugLt →
      registerSeq fuel r ls = some r2 →
      (slugs r2).Pairwise slugLt ∧ r2 = r ++ ls := by
  induction ls with
  | nil =>
    intro r r2 hs h
    simp only [registerSeq, Option.some.injEq] at h
    subst h
    exact ⟨hs, by simp⟩
  | cons lic rest ih =>
    intro r r2 hs h
    unfold registerSeq at h
    cases hreg : registerGo r lic fuel with
    | none => rw [hreg] at h; simp at h
    | some res =>
      cases res with
      | error st => rw [hreg] at h; simp at h
      | ok rmid =>
        rw [hreg] at h
        obtain ⟨heq, hsort⟩ := registerGo_ok r rmid lic fuel hs hreg
        obtain ⟨hs2, heq2⟩ := ih rmid r2 hsort h
        refine ⟨hs2, ?_⟩
        rw [heq2, heq, List.append_assoc]
        rfl

/-- Concrete instantiation of the C9 theorem: registering two licenses in
increasing slug order from the empty registry. -/
theorem c9_registry_sorted_witness :
    (slugs [⟨"Modified BSD license (3-clause)", "bsd3c", "", "", ""⟩,
            ⟨"FreeBSD software license", "freebsd", "", "", ""⟩]).Pairwise slugLt ∧
    ([⟨"Modified BSD license (3-clause)", "bsd3c", "", "", ""⟩,
      ⟨"FreeBSD software license", "freebsd", "", "", ""⟩] : List License) =
      [] ++ [⟨"Modified BSD license (3-clause)", "bsd3c", "", "", ""⟩,
             ⟨"FreeBSD software license", "freebsd", "", "", ""⟩] :=
  c9_registry_sorted
    [⟨"Modified BSD license (3-clause)", "bsd3c", "", "", ""⟩,
     ⟨"FreeBSD software license", "freebsd", "", "", ""⟩] 8 []
    [⟨"Modified BSD license (3-clause)", "bsd3c", "", "", ""⟩,
     ⟨"FreeBSD software license", "freebsd", "", "", ""⟩]
    (by simp [slugs]) (by decide)

/-- C10: `Register` called with an empty slug panics before touching the
search or the entry list: the registry state at the panic is the unchanged
input state, so an empty slug is never stored. -/
theorem c10_register_empty_slug (r : List License) (lic : License) (fuel : Nat)
    (h : lic.Slug = "") :
    registerGo r lic fuel = some (Except.error r) := by
  unfold registerGo
  rw [if_pos h]

/-- Concrete instantiation of the C10 theorem. -/
theorem c10_register_empty_slug_witness :
    registerGo [] ⟨"Nameless", "", "", "", ""⟩ 3 = some (Except.error []) :=
  c10_register_empty_slug [] ⟨"Nameless", "", "", "", ""⟩ 3 rfl

/-- C1: whenever `EditFile` reaches the write/copy/sync phase and any of the
header write, the copy of the original content, or the durability flush fails,
the call returns an error, the original path's content is byte-for-byte
unchanged, the temporary file has been removed, and no rename was performed;
and on every call whatsoever, the rename over the original path happens only
when the write, the copy, and the flush all succeeded. -/
theorem c1_editfile_atomic :
    (∀ (perFile hdr : GoStr) (env : EditEnv) (fs : FS),
      perFile ≠ [] → env.absOk = true → env.seekOk = true → env.parseOk = true →
      env.createOk = true →
      (env.writeOk = false ∨ env.copyOk = false ∨ env.syncOk = false) →
      (editFileGo perFile hdr env fs).ok = false ∧
      (editFileGo perFile hdr env fs).fs.orig = fs.orig ∧
      (editFileGo perFile hdr env fs).fs.tmp = none ∧
      (editFileGo perFile hdr env fs).didRename = false) ∧
    (∀ (perFile hdr : GoStr) (env : EditEnv) (fs : FS),
      (editFileGo perFile hdr env fs).didRename = true →
      env.writeOk = true ∧ env.copyOk = true ∧ env.syncOk = true) := by
  constructor
  · intro perFile hdr env fs hpf ha hs hp hc hfail
    have hsteps : (env.writeOk && env.copyOk && env.syncOk) = false := by
      rcases hfail with h | h | h <;> simp [h]
    simp [editFileGo, hpf, ha, hs, hp, hc, hsteps]
  · intro perFile hdr env fs hren
    obtain ⟨a, s, p, c, w, k, y, cl, r⟩ := env
    by_cases hpf : perFile = []
    · simp [editFileGo, hpf] at hren
    · cases a <;> cases s <;> cases p <;> cases c <;> cases w <;> cases k <;> cases y <;>
        cases cl <;> cases r <;>
        simp_all [editFileGo, hpf]

/-- Concrete instantiation of the C1 theorem: the copy step fails, everything
before it succeeded. -/
theorem c1_editfile_atomic_witness :
    (editFileGo ['x'] ['h'] ⟨true, true, true, true, true, false, true, true, true⟩
        ⟨['o'], none⟩).ok = false ∧
    (editFileGo ['x'] ['h'] ⟨true, true, true, true, true, false, true, true, true⟩
        ⟨['o'], none⟩).fs.orig = (⟨['o'], none⟩ : FS).orig ∧
    (editFileGo ['x'] ['h'] ⟨true, true, true, true, true, false, true, true, true⟩
        ⟨['o'], none⟩).fs.tmp = none ∧
    (editFileGo ['x'] ['h'] ⟨true, true, true, true, true, false, true, true, true⟩
        ⟨['o'], none⟩).didRename = false :=
  c1_editfile_atomic.1 ['x'] ['h'] ⟨true, true, true, true, true, false, true, true, true⟩
    ⟨['o'], none⟩ (by decide) rfl rfl rfl rfl (Or.inr (Or.inl rfl))

/-- C7: when the license has no per-file text, `EditFile` returns a `nil`
error immediately and performs no file operation at all: the file system is
untouched, no temporary file is created, and nothing is renamed. -/
theorem c7_editfile_noop (hdr : GoStr) (env : EditEnv) (fs : FS) :
    editFileGo [] hdr env fs = ⟨true, fs, false, false⟩ := by
  simp [editFileGo]

/-- C8: with style `guess`, the chosen rule is a total deterministic function
of the target file's extension: the rule factors through `filepath.Ext`; the
listed extensions map to the hash, slash, star and xml rules exactly as
claimed; and every other extension maps to the identity (no rule) rather than
an error. -/
theorem c8_choose_indent_by_extension :
    (∀ path : GoStr, chooseIndentGo "guess" path = extRule (goExt path)) ∧
    (extRule [] = some IndentKind.hash ∧
     extRule (".sh".data) = some IndentKind.hash ∧
     extRule (".py".data) = some IndentKind.hash ∧
     extRule (".pl".data) = some IndentKind.hash ∧
     extRule (".rb".data) = some IndentKind.hash ∧
     extRule (".cc".data) = some IndentKind.slash ∧
     extRule (".cpp".data) = some IndentKind.slash ∧
     extRule (".go".data) = some IndentKind.slash ∧
     extRule (".java".data) = some IndentKind.slash ∧
     extRule (".js".data) = some IndentKind.slash ∧
     extRule (".c".data) = some IndentKind.star ∧
     extRule (".h".data) = some IndentKind.star ∧
     extRule (".htm".data) = some IndentKind.xml ∧
     extRule (".html".data) = some IndentKind.xml ∧
     extRule (".xhtml".data) = some IndentKind.xml) ∧
    (∀ e : GoStr,
      e ∉ ([[], ".sh".data, ".py".data, ".pl".data, ".rb".data,
            ".cc".data, ".cpp".data, ".go".data, ".java".data, ".js".data,
            ".c".data, ".h".data, ".htm".data, ".html".data, ".xhtml".data] :
              List GoStr) →
      extRule e = none) := by
  refine ⟨?_, by decide, ?_⟩
  · intro path
    have h1 : indentTable "guess" = none := by decide
    simp [chooseIndentGo, h1]
  · intro e he
    simp only [List.mem_cons, List.mem_singleton, not_or] at he
    obtain ⟨h1, h2, h3, h4, h5, h6, h7, h8, h9, h10, h11, h12, h13, h14, h15, -⟩ := he
    simp [extRule, h1, h2, h3, h4, h5, h6, h7, h8, h9, h10, h11, h12, h13, h14, h15]

/-- Concrete instantiation of the default branch of the C8 theorem: the
unrecognized extension `.rs` selects no rule. -/
theorem c8_choose_indent_by_extension_witness :
    extRule (".rs".data) = none :=
  c8_choose_indent_by_extension.2.2 (".rs".data) (by decide)

/-- C3: normalization is not idempotent for every input text. The text
consisting of a no-break space (U+00A0), a newline and a four-space-indented
`x` normalizes to `"\n    x"` — the no-break-space line is selected as the
minimal leading-whitespace string and collapses to an empty first line — and
normalizing again strips that blank line and the four-space indent, giving
`"x"`. -/
theorem c3_counterexample :
    normalizeGo (normalizeGo ('\u00A0' :: '\n' :: ("    x".data))) ≠
      normalizeGo ('\u00A0' :: '\n' :: ("    x".data)) := by
  decide

/-- C6: the left-justification step does not strip the minimum **common**
leading-whitespace prefix on every input. For the two-line block
`" a" / "\u00A0b"` the lines share no common prefix, so the claim demands the
block stay unchanged, but the code selects the byte-shorter run `" "` and
strips it from the first line only. -/
theorem c6_counterexample :
    cleanup (' ' :: 'a' :: '\n' :: '\u00A0' :: ['b']) ≠
      cleanupSpec (' ' :: 'a' :: '\n' :: '\u00A0' :: ['b']) := by
  decide

set_option maxRecDepth 100000 in

/-- C5: the standalone rendered license output does not always end with
exactly one newline. The FreeBSD entry's template text ends with a
conditional project block; rendered with an empty `Project` the skipped block
leaves the newline that closed the preceding line plus the newline after
`end`, so the output ends with a blank line before the final newline. -/
theorem c5_counterexample :
    (['\n', '\n'] : GoStr).isSuffixOf
      (writeTextGo freebsdText ⟨("A".data), [], fun _ => ("2018".data)⟩) = true := by
  decide

lemma trimRight_eq_dropEnd (l : GoStr) : trimRight l = dropEnd isCut l := rfl

lemma head?_dropWhile_not {α : Type} (p : α → Bool) :
    ∀ (l : List α) (x : α), (l.dropWhile p).head? = some x → p x = false := by
  intro l
  induction l with
  | nil => intro x h; simp [List.dropWhile] at h
  | cons c t ih =>
    intro x h
    by_cases hc : p c
    · rw [List.dropWhile_cons, if_pos hc] at h
      exact ih x h
    · rw [List.dropWhile_cons, if_neg hc] at h
      simp at h
      rw [← h]
      simpa using hc

lemma dropWhile_eq_self_of_head {α : Type} (p : α → Bool) (l : List α)
    (h : ∀ x, l.head? = some x → p x = false) : l.dropWhile p = l := by
  cases l with
  | nil => rfl
  | cons c t =>
    rw [List.dropWhile_cons, if_neg]
    have := h c rfl
    simp [this]

lemma dropEnd_pfx {α : Type} (p : α → Bool) (m : List α) : dropEnd p m <+: m := by
  have h1 : (m.reverse.dropWhile p) <:+ m.reverse := List.dropWhile_suffix p
  have h2 := h1.reverse
  rwa [List.reverse_reverse] at h2

lemma dropEnd_getLast_not {α : Type} (p : α → Bool) (m : List α) (x : α)
    (h : (dropEnd p m).getLast? = some x) : p x = false := by
  unfold dropEnd at h
  rw [List.getLast?_reverse] at h
  exact head?_dropWhile_not p _ x h

lemma dropEnd_eq_self {α : Type} (p : α → Bool) (m : List α)
    (h : ∀ x, m.getLast? = some x → p x = false) : dropEnd p m = m := by
  unfold dropEnd
  rw [dropWhile_eq_self_of_head, List.reverse_reverse]
  intro x hx
  rw [List.head?_reverse] at hx
  exact h x hx

lemma dropEnd_eq_nil_iff {α : Type} (p : α → Bool) (m : List α) :
    dropEnd p m = [] ↔ ∀ x ∈ m, p x = true := by
  unfold dropEnd
  rw [List.reverse_eq_nil_iff, List.dropWhile_eq_nil_iff]
  constructor
  · intro h x hx
    exact h x (List.mem_reverse.mpr hx)
  · intro h x hx
    exact h x (List.mem_reverse.mp hx)

lemma mem_dropEnd {α : Type} (p : α → Bool) (m : List α) (x : α)
    (h : x ∈ dropEnd p m) : x ∈ m := by
  unfold dropEnd at h
  rw [List.mem_reverse] at h
  exact List.mem_reverse.mp ((List.dropWhile_sublist p).subset h)

lemma head?_of_pfx {α : Type} {s t : List α} (h : s <+: t) (x : α)
    (hx : s.head? = some x) : t.head? = some x := by
  obtain ⟨r, hr⟩ := h
  rw [← hr, List.head?_append, hx]
  rfl

lemma splitLines_ne_nil (s : GoStr) : splitLines s ≠ [] := by
  induction s with
  | nil => simp [splitLines]
  | cons c rest ih =>
    by_cases hc : c = '\n'
    · simp [splitLines, hc]
    · simp only [splitLines, if_neg hc]
      cases hsp : splitLines rest with
      | nil => simp
      | cons l ls => simp

lemma mem_splitLines_no_newline (s : GoStr) :
    ∀ l ∈ splitLines s, '\n' ∉ l := by
  induction s with
  | nil =>
    intro l hl
    simp [splitLines] at hl
    simp [hl]
  | cons c rest ih =>
    intro l hl
    by_cases hc : c = '\n'
    · simp only [splitLines, if_pos hc] at hl
      rcases List.mem_cons.mp hl with h | h
      · simp [h]
      · exact ih l h
    · simp only [splitLines, if_neg hc] at hl
      cases hsp : splitLines rest with
      | nil => exact absurd hsp (splitLines_ne_nil rest)
      | cons x xs =>
        rw [hsp] at hl
        rcases List.mem_cons.mp hl with h | h
        · subst h
          intro hmem
          rcases List.mem_cons.mp hmem with h2 | h2
          · exact hc h2.symm
          · exact ih x (hsp ▸ List.mem_cons_self x xs) h2
        · exact ih l (hsp ▸ List.mem_cons_of_mem x h)

lemma mem_splitLines_mem (s : GoStr) :
    ∀ l ∈ splitLines s, ∀ c ∈ l, c ∈ s := by
  induction s with
  | nil =>
    intro l hl c hc
    simp [splitLines] at hl
    subst hl
    simp at hc
  | cons a rest ih =>
    intro l hl c hc
    by_cases ha : a = '\n'
    · simp only [splitLines, if_pos ha] at hl
      rcases List.mem_cons.mp hl with h | h
      · subst h; simp at hc
      · exact List.mem_cons_of_mem a (ih l h c hc)
    · simp only [splitLines, if_neg ha] at hl
      cases hsp : splitLines rest with
      | nil => exact absurd hsp (splitLines_ne_nil rest)
      | cons x xs =>
        rw [hsp] at hl
        rcases List.mem_cons.mp hl with h | h
        · subst h
          rcases List.mem_cons.mp hc with h2 | h2
          · simp [h2]
          · exact List.mem_cons_of_mem a (ih x (hsp ▸ List.mem_cons_self x xs) c h2)
        · exact List.mem_cons_of_mem a (ih l (hsp ▸ List.mem_cons_of_mem x h) c hc)

lemma splitLines_no_newline_id (l : GoStr) (h : '\n' ∉ l) : splitLines l = [l] := by
  induction l with
  | nil => rfl
  | cons c t ih =>
    have hc : c ≠ '\n' := fun hh => h (hh ▸ List.mem_cons_self c t)
    have ht : '\n' ∉ t := fun hh => h (List.mem_cons_of_mem c hh)
    simp only [splitLines, if_neg hc, ih ht]

lemma splitLines_append_newline (l t : GoStr) (h : '\n' ∉ l) :
    splitLines (l ++ '\n' :: t) = l :: splitLines t := by
  induction l with
  | nil => simp [splitLines]
  | cons c r ih =>
    have hc : c ≠ '\n' := fun hh => h (hh ▸ List.mem_cons_self c r)
    have hr : '\n' ∉ r := fun hh => h (List.mem_cons_of_mem c hh)
    simp only [List.cons_append, splitLines, if_neg hc]
    rw [show r.append ('\n' :: t) = r ++ '\n' :: t from rfl, ih hr]

lemma splitLines_joinLines (ls : List GoStr) (hne : ls ≠ [])
    (hnl : ∀ l ∈ ls, '\n' ∉ l) : splitLines (joinLines ls) = ls := by
  induction ls with
  | nil => exact absurd rfl hne
  | cons l rest ih =>
    cases rest with
    | nil =>
      simp only [joinLines]
      exact splitLines_no_newline_id l (hnl l (List.mem_cons_self l []))
    | cons l2 rest2 =>
      have h1 : joinLines (l :: l2 :: rest2) = l ++ '\n' :: joinLines (l2 :: rest2) := rfl
      rw [h1, splitLines_append_newline l _ (hnl l (List.mem_cons_self l _))]
      rw [ih (by simp) (fun x hx => hnl x (List.mem_cons_of_mem l hx))]

lemma trimRight_getLast_not_cut (l : GoStr) (x : Char)
    (h : (trimRight l).getLast? = some x) : isCut x = false :=
  dropEnd_getLast_not isCut l x (trimRight_eq_dropEnd l ▸ h)

lemma trimRight_eq_self (l : GoStr)
    (h : ∀ x, l.getLast? = some x → isCut x = false) : trimRight l = l := by
  rw [trimRight_eq_dropEnd]
  exact dropEnd_eq_self isCut l h

lemma trimRight_idem (l : GoStr) : trimRight (trimRight l) = trimRight l :=
  trimRight_eq_self (trimRight l) (trimRight_getLast_not_cut l)

lemma trimRight_eq_nil_iff (l : GoStr) :
    trimRight l = [] ↔ ∀ c ∈ l, isCut c = true := by
  rw [trimRight_eq_dropEnd]
  exact dropEnd_eq_nil_iff isCut l

lemma mem_trimRight (l : GoStr) (c : Char) (h : c ∈ trimRight l) : c ∈ l :=
  mem_dropEnd isCut l c (trimRight_eq_dropEnd l ▸ h)

/-- `isCut` characters are whitespace. -/
lemma isCut_isGoSpace (c : Char) (h : isCut c = true) : isGoSpace c = true := by
  unfold isCut at h
  unfold isGoSpace
  rcases Bool.or_eq_true_iff.mp h with h1 | h1
  · rcases Bool.or_eq_true_iff.mp h1 with h2 | h2
    · rcases Bool.or_eq_true_iff.mp h2 with h3 | h3 <;> simp_all
    · simp_all
  · simp_all

/-- A non-empty trimmed line keeps a non-whitespace character, provided the
whitespace of the original line is confined to the cutset. -/
lemma trimRight_has_nonspace (l : GoStr)
    (hres : ∀ c ∈ l, isGoSpace c = true → isCut c = true)
    (hne : trimRight l ≠ []) : ∃ c ∈ trimRight l, isGoSpace c = false := by
  by_contra hcon
  push_neg at hcon
  have hall : ∀ c ∈ trimRight l, isCut c = true := by
    intro c hc
    have h1 : isGoSpace c = true := by
      have := hcon c hc
      simpa using this
    exact hres c (mem_trimRight l c hc) h1
  have h2 : trimRight (trimRight l) = [] := (trimRight_eq_nil_iff _).mpr hall
  rw [trimRight_idem] at h2
  exact hne h2

lemma trimSpace_def (lines : List GoStr) :
    trimSpace lines = dropEnd List.isEmpty ((lines.map trimRight).dropWhile List.isEmpty) := rfl

lemma mem_trimSpace (lines : List GoStr) (l : GoStr) (h : l ∈ trimSpace lines) :
    l ∈ lines.map trimRight := by
  rw [trimSpace_def] at h
  exact (List.dropWhile_sublist List.isEmpty).subset (mem_dropEnd _ _ l h)

lemma trimSpace_getLast_ne_nil (lines : List GoStr) (l : GoStr)
    (h : (trimSpace lines).getLast? = some l) : l ≠ [] := by
  rw [trimSpace_def] at h
  have := dropEnd_getLast_not List.isEmpty _ l h
  simpa using this

lemma trimSpace_head_ne_nil (lines : List GoStr) (l : GoStr)
    (h : (trimSpace lines).head? = some l) : l ≠ [] := by
  rw [trimSpace_def] at h
  have hpre := dropEnd_pfx List.isEmpty ((lines.map trimRight).dropWhile List.isEmpty)
  have h2 := head?_of_pfx hpre l h
  have := head?_dropWhile_not List.isEmpty _ l h2
  simpa using this

lemma trimSpace_eq_self (lines : List GoStr)
    (hmap : ∀ l ∈ lines, trimRight l = l)
    (hhead : ∀ l, lines.head? = some l → l ≠ [])
    (hlast : ∀ l, lines.getLast? = some l → l ≠ []) :
    trimSpace lines = lines := by
  rw [trimSpace_def]
  have h1 : lines.map trimRight = lines := by
    rw [List.map_congr_left hmap]
    exact List.map_id lines

  rw [h1]
  rw [dropWhile_eq_self_of_head List.isEmpty lines
    (fun x hx => by simpa using hhead x hx)]
  exact dropEnd_eq_self List.isEmpty lines (fun x hx => by simpa using hlast x hx)

lemma mem_untabLine (w : Nat) (l : GoStr) (c : Char) (h : c ∈ untabLine w l) :
    c ∈ l ∨ c = ' ' := by
  unfold untabLine at h
  rw [List.mem_flatMap] at h
  obtain ⟨a, ha, hc⟩ := h
  by_cases hat : a = '\t'
  · rw [if_pos hat] at hc
    exact Or.inr (List.eq_of_mem_replicate hc)
  · rw [if_neg hat] at hc
    simp at hc
    exact Or.inl (hc ▸ ha)

lemma untabLine_no_tab (w : Nat) (l : GoStr) : '\t' ∉ untabLine w l := by
  intro h
  unfold untabLine at h
  rw [List.mem_flatMap] at h
  obtain ⟨a, _, hc⟩ := h
  by_cases hat : a = '\t'
  · rw [if_pos hat] at hc
    have := List.eq_of_mem_replicate hc
    simp at this
  · rw [if_neg hat] at hc
    simp at hc
    exact hat hc.symm

lemma untabLine_eq_self (w : Nat) (l : GoStr) (h : '\t' ∉ l) : untabLine w l = l := by
  induction l with
  | nil => rfl
  | cons c t ih =>
    have hc : c ≠ '\t' := fun hh => h (hh ▸ List.mem_cons_self c t)
    have ht : '\t' ∉ t := fun hh => h (List.mem_cons_of_mem c hh)
    unfold untabLine
    rw [List.flatMap_cons, if_neg hc]
    have h2 : t.flatMap (fun c => if c = '\t' then List.replicate w ' ' else [c]) = t := ih ht
    rw [h2]
    rfl

lemma mem_untabLine_of_mem (w : Nat) (l : GoStr) (c : Char)
    (hc : c ∈ l) (hct : c ≠ '\t') : c ∈ untabLine w l := by
  unfold untabLine
  rw [List.mem_flatMap]
  exact ⟨c, hc, by rw [if_neg hct]; simp⟩

lemma untabLine_eq_nil_iff (w : Nat) (hw : 0 < w) (l : GoStr) :
    untabLine w l = [] ↔ l = [] := by
  constructor
  · intro h
    cases l with
    | nil => rfl
    | cons c t =>
      unfold untabLine at h
      rw [List.flatMap_cons] at h
      by_cases hc : c = '\t'
      · rw [if_pos hc] at h
        have := List.append_eq_nil.mp h
        have h2 := this.1
        rw [List.replicate_eq_nil_iff] at h2
        omega
      · rw [if_neg hc] at h
        simp at h
  · intro h
    rw [h]
    rfl

lemma untabLine_getLast (w : Nat) (l : GoStr) (c : Char)
    (h : l.getLast? = some c) (hct : c ≠ '\t') :
    (untabLine w l).getLast? = some c := by
  have hsplit := List.dropLast_append_getLast? c h
  have h2 : untabLine w l = untabLine w l.dropLast ++ untabLine w [c] := by
    rw [← hsplit]
    unfold untabLine
    rw [List.flatMap_append]
    rw [hsplit]
  rw [h2]
  have h3 : untabLine w [c] = [c] := by
    unfold untabLine
    rw [List.flatMap_cons, if_neg hct]
    rfl
  rw [h3, List.getLast?_append]
  rfl

lemma leftSpace_all_space (l : GoStr) (c : Char) (h : c ∈ leftSpace l) :
    isGoSpace c = true :=
  List.mem_takeWhile_imp h

lemma leftSpace_isPrefixOf (l : GoStr) : (leftSpace l).isPrefixOf l = true :=
  List.isPrefixOf_iff_prefix.mpr ( List.takeWhile_prefix isGoSpace)

lemma drop_leftSpace (l : GoStr) :
    l.drop (leftSpace l).length = l.dropWhile isGoSpace := by
  induction l with
  | nil => rfl
  | cons c t ih =>
    by_cases hc : isGoSpace c
    · simp only [leftSpace, List.takeWhile_cons, if_pos hc, List.length_cons,
        List.drop_succ_cons, List.dropWhile_cons, hc, if_true]
      exact ih
    · simp [leftSpace, List.takeWhile_cons, List.dropWhile_cons, hc]

lemma goLen_eq_zero_iff (q : GoStr) : goLen q = 0 ↔ q = [] := by
  cases q with
  | nil => simp [goLen]
  | cons c t =>
    simp only [goLen, List.map_cons, List.sum_cons]
    constructor
    · intro h
      have := Char.utf8Size_pos c
      omega
    · intro h
      simp at h

lemma trimPfx_nil (l : GoStr) : trimPfx [] l = l := by
  unfold trimPfx
  rw [if_pos (by simp [List.isPrefixOf])]
  rfl

lemma minStep_none_empty (l : GoStr) (h : l.isEmpty) : minStep none l = none := by
  simp [minStep, h]

lemma minStep_none_nonempty (l : GoStr) (h : ¬ l.isEmpty) :
    minStep none l = some (leftSpace l) := by
  simp [minStep, h]

lemma minStep_some_branch (m l : GoStr) :
    minStep (some m) l = some (leftSpace l) ∨ minStep (some m) l = some m := by
  unfold minStep
  by_cases hcond : (!l.isEmpty && decide (goLen (leftSpace l) < goLen m)) = true
  · exact Or.inl (by simp [hcond])
  · exact Or.inr (by simp [hcond])

lemma minStep_some_lt (m l : GoStr) (h1 : ¬ l.isEmpty)
    (h2 : goLen (leftSpace l) < goLen m) : minStep (some m) l = some (leftSpace l) := by
  simp [minStep, h1, h2]

lemma minStep_some_keep (m l : GoStr)
    (h : l.isEmpty ∨ goLen m ≤ goLen (leftSpace l)) : minStep (some m) l = some m := by
  rcases h with h | h
  · simp [minStep, h]
  · have hcond : (!l.isEmpty && decide (goLen (leftSpace l) < goLen m)) = false := by
      cases hle : l.isEmpty
      · simp only [hle, Bool.not_false, Bool.true_and, decide_eq_false_iff_not]
        omega
      · simp [hle]
    simp [minStep, hcond]

lemma foldl_minStep_some (lines : List GoStr) :
    ∀ (q : GoStr), ∃ q2, lines.foldl minStep (some q) = some q2 := by
  induction lines with
  | nil => intro q; exact ⟨q, rfl⟩
  | cons l t ih =>
    intro q
    rw [List.foldl_cons]
    rcases minStep_some_branch q l with h | h
    · rw [h]; exact ih (leftSpace l)
    · rw [h]; exact ih q

lemma minLS_mem (lines : List GoStr) (p : GoStr) (h : minLS lines = some p) :
    ∃ l ∈ lines, l ≠ [] ∧ p = leftSpace l := by
  unfold minLS at h
  suffices haux : ∀ (acc : Option GoStr), lines.foldl minStep acc = some p →
      acc = some p ∨ ∃ l ∈ lines, l ≠ [] ∧ p = leftSpace l by
    rcases haux none h with hc | hc
    · simp at hc
    · exact hc
  clear h
  induction lines with
  | nil => intro acc h; exact Or.inl h
  | cons l t ih =>
    intro acc h
    rw [List.foldl_cons] at h
    rcases ih (minStep acc l) h with hc | hc
    · cases acc with
      | none =>
        by_cases hl : l.isEmpty
        · rw [minStep_none_empty l hl] at hc
          simp at hc
        · rw [minStep_none_nonempty l hl] at hc
          exact Or.inr ⟨l, List.mem_cons_self l t, by simpa using hl,
            (Option.some.inj hc).symm⟩
      | some m =>
        by_cases hk : minStep (some m) l = some m
        · rw [hk] at hc
          exact Or.inl hc
        · rcases minStep_some_branch m l with hb | hb
          · rw [hb] at hc
            have hl : ¬ l.isEmpty := by
              intro hle
              exact hk (minStep_some_keep m l (Or.inl hle))
            exact Or.inr ⟨l, List.mem_cons_self l t, by simpa using hl,
              (Option.some.inj hc).symm⟩
          · exact absurd hb hk
    · obtain ⟨x, hx, hprop⟩ := hc
      exact Or.inr ⟨x, List.mem_cons_of_mem l hx, hprop⟩

lemma foldl_minStep_zero (rest : List GoStr) (q : GoStr) (hq : goLen q = 0) :
    rest.foldl minStep (some q) = some q := by
  induction rest with
  | nil => rfl
  | cons l t ih =>
    rw [List.foldl_cons, minStep_some_keep q l (Or.inr (by omega)), ih]

lemma minLS_zero (lines : List GoStr)
    (h : ∃ l ∈ lines, l ≠ [] ∧ goLen (leftSpace l) = 0) :
    minLS lines = some [] := by
  unfold minLS
  suffices hmain : ∀ (acc : Option GoStr),
      ((∃ l ∈ lines, l ≠ [] ∧ goLen (leftSpace l) = 0) ∨
        (∃ q, acc = some q ∧ goLen q = 0)) →
      ∃ q2, lines.foldl minStep acc = some q2 ∧ goLen q2 = 0 by
    obtain ⟨q2, hq2, hlen⟩ := hmain none (Or.inl h)
    rw [hq2, (goLen_eq_zero_iff q2).mp hlen]
  clear h
  induction lines with
  | nil =>
    intro acc h
    rcases h with h | h
    · obtain ⟨l, hl, -⟩ := h
      simp at hl
    · obtain ⟨q, hq, hlen⟩ := h
      exact ⟨q, by rw [hq]; rfl, hlen⟩
  | cons l t ih =>
    intro acc h
    rw [List.foldl_cons]
    rcases h with h | h
    · obtain ⟨x, hx, hxe, hxz⟩ := h
      rcases List.mem_cons.mp hx with hcx | hcx
      · subst hcx
        cases acc with
        | none =>
          rw [minStep_none_nonempty x (by simpa using hxe)]
          exact ⟨leftSpace x, foldl_minStep_zero t (leftSpace x) hxz, hxz⟩
        | some m =>
          by_cases hmz : goLen m = 0
          · rw [minStep_some_keep m x (Or.inr (by omega))]
            exact ⟨m, foldl_minStep_zero t m hmz, hmz⟩
          · rw [minStep_some_lt m x (by simpa using hxe) (by omega)]
            exact ⟨leftSpace x, foldl_minStep_zero t (leftSpace x) hxz, hxz⟩
      · exact ih (minStep acc l) (Or.inl ⟨x, hcx, hxe, hxz⟩)
    · obtain ⟨q, hq, hlen⟩ := h
      subst hq
      rw [minStep_some_keep q l (Or.inr (by omega))]
      exact ih (some q) (Or.inr ⟨q, rfl, hlen⟩)

lemma getLast?_of_suffix {α : Type} {s t : List α} (h : s <:+ t) {c : α}
    (hc : s.getLast? = some c) : t.getLast? = some c := by
  obtain ⟨r, hr⟩ := h
  rw [← hr, List.getLast?_append, hc]
  rfl

lemma trimRight_drop (x : GoStr) (k : Nat) (h : trimRight x = x) :
    trimRight (x.drop k) = x.drop k := by
  apply trimRight_eq_self
  intro c hc
  have h2 := getLast?_of_suffix (List.drop_suffix k x) hc
  rw [← h] at h2
  exact trimRight_getLast_not_cut x c h2

lemma trimPfx_eq_or_drop (p x : GoStr) :
    trimPfx p x = x ∨ trimPfx p x = x.drop p.length := by
  unfold trimPfx
  by_cases hp : p.isPrefixOf x
  · exact Or.inr (by rw [if_pos hp])
  · exact Or.inl (by rw [if_neg hp])

lemma mem_trimPfx (p x : GoStr) (c : Char) (h : c ∈ trimPfx p x) : c ∈ x := by
  rcases trimPfx_eq_or_drop p x with he | he <;> rw [he] at h
  · exact h
  · exact List.drop_subset _ _ h

lemma trimPfx_keeps_nonspace (p x : GoStr)
    (hall : ∀ c ∈ p, isGoSpace c = true) (c : Char)
    (hc : c ∈ x) (hcs : isGoSpace c = false) : c ∈ trimPfx p x := by
  unfold trimPfx
  by_cases hp : p.isPrefixOf x
  · rw [if_pos hp]
    obtain ⟨r, hr⟩ := List.isPrefixOf_iff_prefix.mp hp
    have hdrop : x.drop p.length = r := by
      rw [← hr]
      exact List.drop_left _ _
    rw [hdrop]
    rcases List.mem_append.mp (by rw [hr]; exact hc) with hcc | hcc
    · rw [hall c hcc] at hcs
      simp at hcs
    · exact hcc
  · rw [if_neg hp]
    exact hc

lemma leftSpace_eq_nil_of_head (x : GoStr)
    (h : ∀ c, x.head? = some c → isGoSpace c = false) : leftSpace x = [] := by
  cases x with
  | nil => rfl
  | cons c t =>
    unfold leftSpace
    rw [List.takeWhile_cons, if_neg]
    simp [h c rfl]

lemma dropWhile_ne_nil_of_nonsat {α : Type} (p : α → Bool) (x : List α) (c : α)
    (hc : c ∈ x) (hcs : p c = false) : x.dropWhile p ≠ [] := by
  intro hnil
  have := List.dropWhile_eq_nil_iff.mp hnil c hc
  rw [hcs] at this
  exact Bool.false_ne_true this

lemma minLS_none_all_empty (lines : List GoStr) (h : minLS lines = none) :
    ∀ l ∈ lines, l = [] := by
  unfold minLS at h
  suffices haux : ∀ (acc : Option GoStr), lines.foldl minStep acc = none →
      acc = none ∧ ∀ l ∈ lines, l = [] by
    exact (haux none h).2
  clear h
  induction lines with
  | nil =>
    intro acc h
    exact ⟨h, by simp⟩
  | cons l t ih =>
    intro acc h
    rw [List.foldl_cons] at h
    obtain ⟨hstep, hrest⟩ := ih (minStep acc l) h
    cases acc with
    | some m =>
      rcases minStep_some_branch m l with hb | hb <;> rw [hb] at hstep <;> simp at hstep
    | none =>
      by_cases hl : l.isEmpty
      · refine ⟨rfl, ?_⟩
        intro x hx
        rcases List.mem_cons.mp hx with hc | hc
        · exact hc ▸ List.isEmpty_iff.mp hl
        · exact hrest x hc
      · rw [minStep_none_nonempty l hl] at hstep
        simp at hstep

/-- Under the restriction that every whitespace character of the input lies in
the ASCII cutset, the normalized block is fully normal: every line is
right-trimmed, free of newlines and tabs, the boundary lines are non-empty,
and some non-empty line has no leading whitespace. -/
lemma cleanup_normal (s : GoStr)
    (hres : ∀ c ∈ s, isGoSpace c = true → isCut c = true) :
    (∀ l ∈ cleanup s, trimRight l = l) ∧
    (∀ l ∈ cleanup s, '\n' ∉ l) ∧
    (∀ l ∈ cleanup s, '\t' ∉ l) ∧
    (∀ l, (cleanup s).head? = some l → l ≠ []) ∧
    (∀ l, (cleanup s).getLast? = some l → l ≠ []) ∧
    (cleanup s = [] ∨ ∃ l ∈ cleanup s, l ≠ [] ∧ leftSpace l = []) := by
  set L1 := trimSpace (splitLines s) with hL1def
  have hL1mem : ∀ l ∈ L1, ∃ x ∈ splitLines s, l = trimRight x := by
    intro l hl
    have h2 := mem_trimSpace _ l hl
    rw [List.mem_map] at h2
    obtain ⟨x, hx, he⟩ := h2
    exact ⟨x, hx, he.symm⟩
  have hL1a : ∀ l ∈ L1, trimRight l = l := by
    intro l hl
    obtain ⟨x, hx, he⟩ := hL1mem l hl
    rw [he, trimRight_idem]
  have hL1nl : ∀ l ∈ L1, '\n' ∉ l := by
    intro l hl h
    obtain ⟨x, hx, he⟩ := hL1mem l hl
    exact mem_splitLines_no_newline s x hx (mem_trimRight x _ (he ▸ h))
  have hL1res : ∀ l ∈ L1, ∀ c ∈ l, isGoSpace c = true → isCut c = true := by
    intro l hl c hc
    obtain ⟨x, hx, he⟩ := hL1mem l hl
    exact hres c (mem_splitLines_mem s x hx c (mem_trimRight x c (he ▸ hc)))
  have hL1non : ∀ l ∈ L1, l ≠ [] → ∃ c ∈ l, isGoSpace c = false := by
    intro l hl hne
    obtain ⟨x, hx, he⟩ := hL1mem l hl
    subst he
    exact trimRight_has_nonspace x
      (fun c hc hsp => hres c (mem_splitLines_mem s x hx c hc) hsp) hne
  set L2 := L1.map (untabLine 4) with hL2def
  have hcs : cleanup s = leftJust L2 := rfl
  have hL2mem : ∀ l ∈ L2, ∃ x ∈ L1, l = untabLine 4 x := by
    intro l hl
    rw [hL2def, List.mem_map] at hl
    obtain ⟨x, hx, he⟩ := hl
    exact ⟨x, hx, he.symm⟩
  have hL2a : ∀ l ∈ L2, trimRight l = l := by
    intro l hl
    obtain ⟨x, hx, he⟩ := hL2mem l hl
    subst he
    by_cases hxe : x = []
    · subst hxe; rfl
    · have hs2 : x.getLast?.isSome = true := List.getLast?_isSome.mpr hxe
      obtain ⟨c, hc⟩ := Option.isSome_iff_exists.mp hs2
      have hcut : isCut c = false := by
        apply trimRight_getLast_not_cut x c
        rw [hL1a x hx]
        exact hc
      have hct : c ≠ '\t' := by
        intro he2
        rw [he2] at hcut
        simp [isCut] at hcut
      apply trimRight_eq_self
      intro y hy
      rw [untabLine_getLast 4 x c hc hct] at hy
      exact (Option.some.inj hy) ▸ hcut
  have hL2nl : ∀ l ∈ L2, '\n' ∉ l := by
    intro l hl h
    obtain ⟨x, hx, he⟩ := hL2mem l hl
    subst he
    rcases mem_untabLine 4 x _ h with hc | hc
    · exact hL1nl x hx hc
    · simp at hc
  have hL2nt : ∀ l ∈ L2, '\t' ∉ l := by
    intro l hl h
    obtain ⟨x, hx, he⟩ := hL2mem l hl
    subst he
    exact untabLine_no_tab 4 x h
  have hL2non : ∀ l ∈ L2, l ≠ [] → ∃ c ∈ l, isGoSpace c = false := by
    intro l hl hne
    obtain ⟨x, hx, he⟩ := hL2mem l hl
    subst he
    have hxe : x ≠ [] := by
      intro hh
      rw [hh] at hne
      exact hne rfl
    obtain ⟨c, hcx, hcs⟩ := hL1non x hx hxe
    have hct : c ≠ '\t' := by
      intro he2
      rw [he2] at hcs
      simp [isGoSpace] at hcs
    exact ⟨c, mem_untabLine_of_mem 4 x c hcx hct, hcs⟩
  have hL2head : ∀ l, L2.head? = some l → l ≠ [] := by
    intro l hl
    rw [hL2def, List.head?_map] at hl
    cases hh : L1.head? with
    | none => rw [hh] at hl; simp at hl
    | some x =>
      rw [hh] at hl
      have hxe : x ≠ [] := trimSpace_head_ne_nil (splitLines s) x hh
      have hle : l = untabLine 4 x := (Option.some.inj hl).symm
      rw [hle]
      intro hnil
      exact hxe ((untabLine_eq_nil_iff 4 (by omega) x).mp hnil)
  have hL2last : ∀ l, L2.getLast? = some l → l ≠ [] := by
    intro l hl
    rw [hL2def, List.getLast?_map] at hl
    cases hh : L1.getLast? with
    | none => rw [hh] at hl; simp at hl
    | some x =>
      rw [hh] at hl
      have hxe : x ≠ [] := trimSpace_getLast_ne_nil (splitLines s) x hh
      have hle : l = untabLine 4 x := (Option.some.inj hl).symm
      rw [hle]
      intro hnil
      exact hxe ((untabLine_eq_nil_iff 4 (by omega) x).mp hnil)
  cases hmin : minLS L2 with
  | none =>
    have hempty := minLS_none_all_empty L2 hmin
    have hL2nil : L2 = [] := by
      cases hL2c : L2 with
      | nil => rfl
      | cons a t =>
        have ha : a ≠ [] := hL2head a (by rw [hL2c]; rfl)
        exact absurd (hempty a (by rw [hL2c]; exact List.mem_cons_self a t)) ha
    have hb : cleanup s = [] := by
      rw [hcs]
      unfold leftJust
      rw [hmin]
      exact hL2nil
    rw [hb]
    refine ⟨by simp, by simp, by simp, ?_, ?_, Or.inl rfl⟩
    · intro l h; simp at h
    · intro l h; simp at h
  | some p =>
    obtain ⟨l0, hl0mem, hl0ne, hpe⟩ := minLS_mem L2 p hmin
    have hpall : ∀ c ∈ p, isGoSpace c = true := by
      intro c hc
      exact leftSpace_all_space l0 c (hpe ▸ hc)
    have hb : cleanup s = L2.map (trimPfx p) := by
      rw [hcs]
      unfold leftJust
      rw [hmin]
    have hbmem : ∀ l ∈ cleanup s, ∃ x ∈ L2, l = trimPfx p x := by
      intro l hl
      rw [hb, List.mem_map] at hl
      obtain ⟨x, hx, he⟩ := hl
      exact ⟨x, hx, he.symm⟩
    refine ⟨?_, ?_, ?_, ?_, ?_, ?_⟩
    · intro l hl
      obtain ⟨x, hx, he⟩ := hbmem l hl
      subst he
      rcases trimPfx_eq_or_drop p x with hd | hd <;> rw [hd]
      · exact hL2a x hx
      · exact trimRight_drop x p.length (hL2a x hx)
    · intro l hl h
      obtain ⟨x, hx, he⟩ := hbmem l hl
      exact hL2nl x hx (mem_trimPfx p x _ (he ▸ h))
    · intro l hl h
      obtain ⟨x, hx, he⟩ := hbmem l hl
      exact hL2nt x hx (mem_trimPfx p x _ (he ▸ h))
    · intro l hl
      rw [hb, List.head?_map] at hl
      cases hh : L2.head? with
      | none => rw [hh] at hl; simp at hl
      | some x =>
        rw [hh] at hl
        have hxe : x ≠ [] := hL2head x hh
        have hxmem : x ∈ L2 := by
          cases hL2c : L2 with
          | nil => rw [hL2c] at hh; simp at hh
          | cons a t =>
            rw [hL2c] at hh
            simp at hh
            rw [← hh]
            exact List.mem_cons_self a t
        obtain ⟨c, hcx, hcns⟩ := hL2non x hxmem hxe
        have hcl : c ∈ trimPfx p x := trimPfx_keeps_nonspace p x hpall c hcx hcns
        have hle : l = trimPfx p x := (Option.some.inj hl).symm
        rw [hle]
        exact List.ne_nil_of_mem hcl
    · intro l hl
      rw [hb, List.getLast?_map] at hl
      cases hh : L2.getLast? with
      | none => rw [hh] at hl; simp at hl
      | some x =>
        rw [hh] at hl
        have hxe : x ≠ [] := hL2last x hh
        have hxmem : x ∈ L2 := mem_of_getLast? hh
        obtain ⟨c, hcx, hcns⟩ := hL2non x hxmem hxe
        have hcl : c ∈ trimPfx p x := trimPfx_keeps_nonspace p x hpall c hcx hcns
        have hle : l = trimPfx p x := (Option.some.inj hl).symm
        rw [hle]
        exact List.ne_nil_of_mem hcl
    · refine Or.inr ⟨trimPfx p l0, ?_, ?_, ?_⟩
      · rw [hb]
        exact List.mem_map_of_mem (trimPfx p) hl0mem
      · have hd : trimPfx p l0 = l0.dropWhile isGoSpace := by
          unfold trimPfx
          rw [if_pos (by rw [hpe]; exact leftSpace_isPrefixOf l0)]
          rw [hpe]
          exact drop_leftSpace l0
        rw [hd]
        obtain ⟨c, hcx, hcns⟩ := hL2non l0 hl0mem hl0ne
        exact dropWhile_ne_nil_of_nonsat isGoSpace l0 c hcx hcns
      · have hd : trimPfx p l0 = l0.dropWhile isGoSpace := by
          unfold trimPfx
          rw [if_pos (by rw [hpe]; exact leftSpace_isPrefixOf l0)]
          rw [hpe]
          exact drop_leftSpace l0
        rw [hd]
        apply leftSpace_eq_nil_of_head
        intro c hc
        exact head?_dropWhile_not isGoSpace l0 c hc

/-- Normalizing the string form of a fully normal block gives the block back. -/
lemma cleanup_of_normal (b : List GoStr)
    (hA : ∀ l ∈ b, trimRight l = l)
    (hNL : ∀ l ∈ b, '\n' ∉ l)
    (hNT : ∀ l ∈ b, '\t' ∉ l)
    (hH : ∀ l, b.head? = some l → l ≠ [])
    (hL : ∀ l, b.getLast? = some l → l ≠ [])
    (hE : b = [] ∨ ∃ l ∈ b, l ≠ [] ∧ leftSpace l = []) :
    cleanup (joinLines b) = b := by
  rcases hE with hE | hE
  · subst hE
    rfl
  · have hne : b ≠ [] := by
      obtain ⟨l, hl, -, -⟩ := hE
      exact List.ne_nil_of_mem hl
    unfold cleanup
    rw [splitLines_joinLines b hne hNL]
    rw [trimSpace_eq_self b hA hH hL]
    have huntab : untabify 0 b = b := by
      show List.map (untabLine 4) b = b
      rw [List.map_congr_left (fun l hl => untabLine_eq_self 4 l (hNT l hl))]
      exact List.map_id b
    rw [huntab]
    unfold leftJust
    obtain ⟨l, hl, hlne, hls⟩ := hE
    rw [minLS_zero b ⟨l, hl, hlne, by rw [hls]; rfl⟩]
    show List.map (trimPfx []) b = b
    rw [List.map_congr_left (fun l _ => trimPfx_nil l)]
    exact List.map_id b

/-- C3 (amended): normalization is idempotent on every input text whose
`unicode.IsSpace` characters all lie in the TrimRight cutset `" \t\r\n"`.
The restriction is necessary: any whitespace character outside the cutset —
non-ASCII ones such as U+00A0, but equally the ASCII controls `\x0B` and
`\x0C` — survives the right-trim, can be selected as the minimal
leading-whitespace string, and then the first pass leaves a blank line that a
second pass removes; see the counterexample. -/
theorem c3_normalize_idempotent (s : GoStr)
    (hres : ∀ c ∈ s, isGoSpace c = true → isCut c = true) :
    normalizeGo (normalizeGo s) = normalizeGo s := by
  unfold normalizeGo
  obtain ⟨hA, hNL, hNT, hH, hL, hE⟩ := cleanup_normal s hres
  rw [cleanup_of_normal (cleanup s) hA hNL hNT hH hL hE]

/-- Concrete instantiation of the C3 theorem. -/
theorem c3_normalize_idempotent_witness :
    normalizeGo (normalizeGo ("  a\n\tb  \n".data)) =
      normalizeGo ("  a\n\tb  \n".data) :=
  c3_normalize_idempotent ("  a\n\tb  \n".data) (by decide)

lemma mem_leftJust (lines : List GoStr) (l : GoStr) (h : l ∈ leftJust lines) :
    ∃ x ∈ lines, ∀ c ∈ l, c ∈ x := by
  unfold leftJust at h
  cases hmin : minLS lines with
  | none =>
    rw [hmin] at h
    exact ⟨l, h, fun c hc => hc⟩
  | some p =>
    rw [hmin] at h
    simp only [List.mem_map] at h
    obtain ⟨x, hx, he⟩ := h
    exact ⟨x, hx, fun c hc => mem_trimPfx p x c (he ▸ hc)⟩

/-- No line of a normalized block contains a newline (no whitespace
restriction needed). -/
lemma cleanup_no_newline (s : GoStr) (l : GoStr) (hl : l ∈ cleanup s) :
    '\n' ∉ l := by
  intro hmem
  obtain ⟨x, hx, hsub⟩ := mem_leftJust (untabify 0 (trimSpace (splitLines s))) l hl
  have hx2 : '\n' ∈ x := hsub '\n' hmem
  unfold untabify at hx
  simp only [List.mem_map] at hx
  obtain ⟨y, hy, hye⟩ := hx
  rw [← hye] at hx2
  rcases mem_untabLine _ y '\n' hx2 with hc | hc
  · have := mem_trimSpace (splitLines s) y hy
    rw [List.mem_map] at this
    obtain ⟨z, hz, hze⟩ := this
    exact mem_splitLines_no_newline s z hz (mem_trimRight z '\n' (hze ▸ hc))
  · simp at hc

lemma joinLines_concat (ls : List GoStr) (l : GoStr) :
    joinLines (ls ++ [l]) = if ls = [] then l else joinLines ls ++ '\n' :: l := by
  induction ls with
  | nil => simp [joinLines]
  | cons a t ih =>
    cases t with
    | nil => simp [joinLines]
    | cons b t2 =>
      have h1 : joinLines ((a :: b :: t2) ++ [l]) =
          a ++ '\n' :: joinLines ((b :: t2) ++ [l]) := rfl
      rw [h1, ih, if_neg (by simp)]
      rw [if_neg (by simp)]
      have h2 : joinLines (a :: b :: t2) = a ++ '\n' :: joinLines (b :: t2) := rfl
      rw [h2]
      simp

lemma getLast?_join_eq (b : List GoStr) (l : GoStr)
    (h1 : b.getLast? = some l) (h2 : l ≠ []) :
    (joinLines b).getLast? = l.getLast? := by
  have hsp := List.dropLast_append_getLast? l h1
  rw [← hsp, joinLines_concat]
  by_cases hd : b.dropLast = []
  · rw [if_pos hd]
  · rw [if_neg hd, List.getLast?_append]
    have hnl : ('\n' :: l).getLast? = l.getLast? := by
      cases l with
      | nil => exact absurd rfl h2
      | cons c t => exact List.getLast?_cons_cons
    rw [hnl]
    have hsome : l.getLast?.isSome = true := List.getLast?_isSome.mpr h2
    obtain ⟨c, hc⟩ := Option.isSome_iff_exists.mp hsome
    rw [hc]
    rfl

/-- C5 (amended): the template string WriteText renders — the normalized
license text followed by one appended empty line — ends with exactly one
newline whenever the normalized block's last line is non-empty (true of every
registered license body); the rendered output, however, can regain a trailing
blank line through template expansion when a trailing conditional project
block is skipped, as the freebsd counterexample shows. -/
theorem c5_template_single_newline (text : String) (l : GoStr)
    (h1 : (cleanup text.data).getLast? = some l) (h2 : l ≠ []) :
    (writeTextTemplate text).getLast? = some '\n' ∧
    ((writeTextTemplate text).dropLast).getLast? ≠ some '\n' := by
  have hb : cleanup text.data ≠ [] := by
    intro hh
    rw [hh] at h1
    simp at h1
  have hsplit : writeTextTemplate text = joinLines (cleanup text.data) ++ ['\n'] := by
    unfold writeTextTemplate
    rw [joinLines_concat, if_neg hb]
  refine ⟨?_, ?_⟩
  · rw [hsplit, List.getLast?_append]
    rfl
  · rw [hsplit, List.dropLast_concat]
    intro hcon
    rw [getLast?_join_eq (cleanup text.data) l h1 h2] at hcon
    exact cleanup_no_newline text.data l (mem_of_getLast? h1) (mem_of_getLast? hcon)

/-- Concrete instantiation of the C5 theorem: the MIT per-file body `"a"`
stands in for any normalized text with a non-empty last line. -/
theorem c5_template_single_newline_witness :
    (writeTextTemplate "a").getLast? = some '\n' ∧
    ((writeTextTemplate "a").dropLast).getLast? ≠ some '\n' :=
  c5_template_single_newline "a" ['a'] (by decide) (by decide)

lemma goLen_replicate_space (n : Nat) : goLen (List.replicate n ' ') = n := by
  unfold goLen
  rw [List.map_replicate]
  have h : (' ').utf8Size = 1 := by decide
  rw [h, List.sum_replicate]
  simp

lemma commonPfx_replicate (a b : Nat) :
    commonPfx (List.replicate a ' ') (List.replicate b ' ') =
      List.replicate (min a b) ' ' := by
  induction a generalizing b with
  | zero => simp [commonPfx]
  | succ a2 ih =>
    cases b with
    | zero => simp [commonPfx]
    | succ b2 =>
      simp only [List.replicate_succ, commonPfx, if_pos rfl, ih]
      have h : min (a2 + 1) (b2 + 1) = min a2 b2 + 1 := by omega
      rw [h, List.replicate_succ]
      simp

lemma trimPfx_empty_right (p : GoStr) : trimPfx p [] = [] := by
  unfold trimPfx
  split <;> simp

lemma replicate_prefix_of_le (a n : Nat) (h : a ≤ n) :
    List.replicate a ' ' <+: List.replicate n ' ' := by
  refine ⟨List.replicate (n - a) ' ', ?_⟩
  rw [← List.replicate_add]
  congr 1
  omega

lemma foldl_minStep_min (lines : List GoStr) :
    ∀ (acc : Option GoStr) (p : GoStr), lines.foldl minStep acc = some p →
      (∀ l ∈ lines, l ≠ [] → goLen p ≤ goLen (leftSpace l)) ∧
      (∀ m, acc = some m → goLen p ≤ goLen m) := by
  induction lines with
  | nil =>
    intro acc p h
    refine ⟨by simp, ?_⟩
    intro m hm
    rw [hm] at h
    rw [Option.some.inj h]
  | cons l t ih =>
    intro acc p h
    rw [List.foldl_cons] at h
    obtain ⟨iht, ihacc⟩ := ih (minStep acc l) p h
    have hstep : ∀ m2, minStep acc l = some m2 → goLen p ≤ goLen m2 :=
      fun m2 hm2 => ihacc m2 hm2
    have hl : l ≠ [] → goLen p ≤ goLen (leftSpace l) := by
      intro hlne
      have hlne2 : ¬ l.isEmpty := by simpa using hlne
      cases acc with
      | none => exact hstep (leftSpace l) (minStep_none_nonempty l hlne2)
      | some m =>
        by_cases hlt : goLen (leftSpace l) < goLen m
        · exact hstep (leftSpace l) (minStep_some_lt m l hlne2 hlt)
        · have h2 := hstep m (minStep_some_keep m l (Or.inr (by omega)))
          omega
    refine ⟨?_, ?_⟩
    · intro x hx hxne
      rcases List.mem_cons.mp hx with hc | hc
      · exact hc ▸ hl (hc ▸ hxne)
      · exact iht x hc hxne
    · intro m hm
      subst hm
      have hlem : ¬ l.isEmpty → goLen (leftSpace l) < goLen m →
          goLen p ≤ goLen m := by
        intro h1 h2
        have := hstep (leftSpace l) (minStep_some_lt m l h1 h2)
        omega
      by_cases h1 : l.isEmpty
      · exact hstep m (minStep_some_keep m l (Or.inl h1))
      · by_cases h2 : goLen (leftSpace l) < goLen m
        · exact hlem h1 h2
        · exact hstep m (minStep_some_keep m l (Or.inr (by omega)))

lemma minLS_min (lines : List GoStr) (p : GoStr) (h : minLS lines = some p) :
    ∀ l ∈ lines, l ≠ [] → goLen p ≤ goLen (leftSpace l) :=
  (foldl_minStep_min lines none p h).1

lemma foldl_commonPfx_char (ls : List GoStr)
    (hall : ∀ l ∈ ls, ∃ n, leftSpace l = List.replicate n ' ') :
    ∀ (A : Nat), ∃ K, ls.foldl (fun acc ln => commonPfx acc (leftSpace ln))
        (List.replicate A ' ') = List.replicate K ' ' ∧
      K ≤ A ∧ (K = A ∨ ∃ l ∈ ls, K = (leftSpace l).length) ∧
      (∀ l ∈ ls, K ≤ (leftSpace l).length) := by
  induction ls with
  | nil =>
    intro A
    exact ⟨A, rfl, le_refl A, Or.inl rfl, by simp⟩
  | cons l t ih =>
    intro A
    obtain ⟨n, hn⟩ := hall l (List.mem_cons_self l t)
    have hstep : commonPfx (List.replicate A ' ') (leftSpace l) =
        List.replicate (min A n) ' ' := by
      rw [hn, commonPfx_replicate]
    have hall2 : ∀ x ∈ t, ∃ m, leftSpace x = List.replicate m ' ' :=
      fun x hx => hall x (List.mem_cons_of_mem l hx)
    obtain ⟨K, hK, hKle, hKeq, hKall⟩ := ih hall2 (min A n)
    refine ⟨K, ?_, by omega, ?_, ?_⟩
    · rw [List.foldl_cons, hstep]
      exact hK
    · rcases hKeq with he | he
      · by_cases hAn : A ≤ n
        · exact Or.inl (by omega)
        · refine Or.inr ⟨l, List.mem_cons_self l t, ?_⟩
          rw [hn, List.length_replicate]
          omega
      · obtain ⟨x, hx, hxe⟩ := he
        exact Or.inr ⟨x, List.mem_cons_of_mem l hx, hxe⟩
    · intro x hx
      rcases List.mem_cons.mp hx with hc | hc
      · subst hc
        rw [hn, List.length_replicate]
        omega
      · exact hKall x hc

lemma minLS_isSome (lines : List GoStr) (l0 : GoStr) (h0 : l0 ∈ lines)
    (hne : l0 ≠ []) : ∃ p, minLS lines = some p := by
  cases hmin : minLS lines with
  | none => exact absurd (minLS_none_all_empty lines hmin l0 h0) hne
  | some p => exact ⟨p, rfl⟩

/-- Under uniform (space-only) leading whitespace and with no non-empty blank
lines, the code's left justification agrees with the claim's: the stripped
string is the minimum common leading-whitespace prefix of the non-blank
lines. -/
lemma leftJust_eq_spec (lines : List GoStr)
    (Ha : ∀ l ∈ lines, ∀ c ∈ leftSpace l, c = ' ')
    (Hb : ∀ l ∈ lines, l ≠ [] → ∃ c ∈ l, isGoSpace c = false) :
    leftJust lines = specLeftJust lines := by
  have hblank : ∀ l ∈ lines, blankLine l = l.isEmpty := by
    intro l hl
    cases hle : l.isEmpty
    · have hne : l ≠ [] := by simpa using hle
      obtain ⟨c, hc, hcs⟩ := Hb l hl hne
      unfold blankLine
      rw [List.all_eq_false]
      exact ⟨c, hc, by simp [hcs]⟩
    · have he : l = [] := by simpa using hle
      subst he
      rfl
  have hreps : ∀ l ∈ lines, leftSpace l = List.replicate (leftSpace l).length ' ' :=
    fun l hl => List.eq_replicate_of_mem (Ha l hl)
  by_cases hempty : ∀ l ∈ lines, l = []
  · have hmin : minLS lines = none := by
      cases hm : minLS lines with
      | none => rfl
      | some p =>
        obtain ⟨x, hx, hxne, -⟩ := minLS_mem lines p hm
        exact absurd (hempty x hx) hxne
    have h1 : leftJust lines = lines := by
      unfold leftJust
      rw [hmin]
    rw [h1]
    unfold specLeftJust
    have h2 : ∀ l ∈ lines,
        (if blankLine l then [] else l.drop (wsCommonPfx lines).length) = l := by
      intro l hl
      have he := hempty l hl
      subst he
      split <;> simp
    rw [List.map_congr_left h2]
    exact (List.map_id lines).symm
  · push_neg at hempty
    obtain ⟨l0, hl0, hl0ne⟩ := hempty
    obtain ⟨p, hmin⟩ := minLS_isSome lines l0 hl0 hl0ne
    obtain ⟨lm, hlmmem, hlmne, hpe⟩ := minLS_mem lines p hmin
    have hp_rep : p = List.replicate p.length ' ' := by
      apply List.eq_replicate_of_mem
      intro c hc
      exact Ha lm hlmmem c (hpe ▸ hc)
    have hglen : ∀ l ∈ lines, goLen (leftSpace l) = (leftSpace l).length := by
      intro l hl
      conv_lhs => rw [hreps l hl]
      rw [goLen_replicate_space]
    have hplen : goLen p = p.length := by
      rw [hpe]
      exact hglen lm hlmmem
    have hpmin : ∀ l ∈ lines, l ≠ [] → p.length ≤ (leftSpace l).length := by
      intro l hl hne
      have h1 := minLS_min lines p hmin l hl hne
      rw [hplen, hglen l hl] at h1
      exact h1
    have hmemfilter : ∀ l ∈ lines, l ≠ [] →
        l ∈ lines.filter (fun x => !blankLine x) := by
      intro l hl hne
      rw [List.mem_filter]
      refine ⟨hl, ?_⟩
      rw [hblank l hl]
      simpa using hne
    have hfiltersub : ∀ l ∈ lines.filter (fun x => !blankLine x), l ∈ lines ∧ l ≠ [] := by
      intro l hl
      rw [List.mem_filter] at hl
      refine ⟨hl.1, ?_⟩
      have h2 := hl.2
      rw [hblank l hl.1] at h2
      simpa using h2
    have hwcp : wsCommonPfx lines = p := by
      cases hnb : lines.filter (fun x => !blankLine x) with
      | nil =>
        exact absurd (hnb ▸ hmemfilter l0 hl0 hl0ne) (by simp)
      | cons f rest =>
        have hws : wsCommonPfx lines =
            rest.foldl (fun acc ln => commonPfx acc (leftSpace ln)) (leftSpace f) := by
          unfold wsCommonPfx
          rw [hnb]
        have hfmem : f ∈ lines ∧ f ≠ [] :=
          hfiltersub f (by rw [hnb]; exact List.mem_cons_self f rest)
        have hrestsub : ∀ l ∈ rest, l ∈ lines ∧ l ≠ [] := by
          intro l hl
          exact hfiltersub l (by rw [hnb]; exact List.mem_cons_of_mem f hl)
        have hfrep := hreps f hfmem.1
        obtain ⟨K, hK, hKle, hKeq, hKall⟩ :=
          foldl_commonPfx_char rest
            (fun l hl => ⟨(leftSpace l).length, hreps l (hrestsub l hl).1⟩)
            ((leftSpace f).length)
        rw [hws]
        conv_lhs => rw [hfrep]
        rw [hK]
        have hKup : p.length ≤ K := by
          rcases hKeq with he | he
          · rw [he]
            exact hpmin f hfmem.1 hfmem.2
          · obtain ⟨x, hx, hxe⟩ := he
            rw [hxe]
            exact hpmin x (hrestsub x hx).1 (hrestsub x hx).2
        have hKdown : K ≤ p.length := by
          have hlm2 : lm ∈ lines.filter (fun x => !blankLine x) :=
            hmemfilter lm hlmmem hlmne
          rw [hnb] at hlm2
          have hplen2 : p.length = (leftSpace lm).length := by rw [hpe]
          rcases List.mem_cons.mp hlm2 with hc | hc
          · rw [hplen2, hc]
            exact hKle
          · rw [hplen2]
            exact hKall lm hc
        have hKp : K = p.length := by omega
        rw [hKp]
        exact hp_rep.symm
    unfold leftJust specLeftJust
    rw [hmin, hwcp]
    apply List.map_congr_left
    intro l hl
    by_cases hne : l = []
    · subst hne
      rw [trimPfx_empty_right]
      split <;> simp
    · have hbl : blankLine l = false := by
        rw [hblank l hl]
        simpa using hne
      rw [hbl]
      simp only [Bool.false_eq_true, if_false]
      unfold trimPfx
      rw [if_pos]
      · rw [ List.isPrefixOf_iff_prefix]
        have h1 : p <+: leftSpace l := by
          conv_rhs => rw [hreps l hl]
          conv_lhs => rw [hp_rep]
          exact replicate_prefix_of_le p.length (leftSpace l).length (hpmin l hl hne)
        exact h1.trans ( List.takeWhile_prefix isGoSpace)

lemma mem_trimSpace_facts (s : GoStr) (l : GoStr)
    (hl : l ∈ trimSpace (splitLines s)) :
    (∀ c ∈ l, c ∈ s) ∧ '\n' ∉ l ∧ trimRight l = l := by
  have h2 := mem_trimSpace (splitLines s) l hl
  rw [List.mem_map] at h2
  obtain ⟨x, hx, he⟩ := h2
  subst he
  refine ⟨?_, ?_, trimRight_idem x⟩
  · intro c hc
    exact mem_splitLines_mem s x hx c (mem_trimRight x c hc)
  · intro h
    exact mem_splitLines_no_newline s x hx (mem_trimRight x _ h)

lemma trimSpace_line_nonspace (s : GoStr) (l : GoStr)
    (hres : ∀ c ∈ s, isGoSpace c = true → isCut c = true)
    (hl : l ∈ trimSpace (splitLines s)) (hne : l ≠ []) :
    ∃ c ∈ l, isGoSpace c = false := by
  have h2 := mem_trimSpace (splitLines s) l hl
  rw [List.mem_map] at h2
  obtain ⟨x, hx, he⟩ := h2
  subst he
  exact trimRight_has_nonspace x
    (fun c hc hsp => hres c (mem_splitLines_mem s x hx c hc) hsp) hne

/-- C6 (amended): for every input text whose whitespace characters are only
the ASCII space, tab and newline, the left-justification step of
normalization strips exactly the minimum common leading-whitespace prefix of
the non-blank lines from every line, leaving blank lines empty — the
normalization with the code's `leftJust` coincides with the one using the
claim's description. (For mixed whitespace the two differ; see the
counterexample.) -/
theorem c6_leftjust_min_common (s : GoStr)
    (hres : ∀ c ∈ s, isGoSpace c = true → (c = ' ' ∨ c = '\t' ∨ c = '\n')) :
    cleanup s = cleanupSpec s := by
  have hcut : ∀ c ∈ s, isGoSpace c = true → isCut c = true := by
    intro c hc hsp
    rcases hres c hc hsp with h | h | h <;> subst h <;> rfl
  have h1 : cleanup s =
      leftJust ((trimSpace (splitLines s)).map (untabLine 4)) := rfl
  have h2 : cleanupSpec s =
      specLeftJust ((trimSpace (splitLines s)).map (untabLine 4)) := rfl
  rw [h1, h2]
  apply leftJust_eq_spec
  · intro l hl c hc
    have hsp := leftSpace_all_space l c hc
    have hcl : c ∈ l := ( List.takeWhile_prefix isGoSpace).subset hc
    rw [List.mem_map] at hl
    obtain ⟨y, hy, hye⟩ := hl
    subst hye
    rcases mem_untabLine 4 y c hcl with hcy | hsp2
    · obtain ⟨hchars, hnl, -⟩ := mem_trimSpace_facts s y hy
      rcases hres c (hchars c hcy) hsp with h | h | h
      · exact h
      · exact absurd (h ▸ hcl) (untabLine_no_tab 4 y)
      · exact absurd (h ▸ hcy) hnl
    · exact hsp2
  · intro l hl hne
    rw [List.mem_map] at hl
    obtain ⟨y, hy, hye⟩ := hl
    subst hye
    have hyne : y ≠ [] := by
      intro hh
      subst hh
      exact hne rfl
    obtain ⟨c, hcy, hcs⟩ := trimSpace_line_nonspace s y hcut hy hyne
    have hct : c ≠ '\t' := by
      intro he2
      rw [he2] at hcs
      simp [isGoSpace] at hcs
    exact ⟨c, mem_untabLine_of_mem 4 y c hcy hct, hcs⟩

/-- Concrete instantiation of the C6 theorem. -/
theorem c6_leftjust_min_common_witness :
    cleanup ("  a\n    b".data) = cleanupSpec ("  a\n    b".data) :=
  c6_leftjust_min_common ("  a\n    b".data) (by decide)

end Lice
